import Mathlib

/-!
Verification of the invoice/GST field-extraction pipeline (`chat.py`).

The Python source is shallowly embedded: strings become `List Char` (with
`String` wrappers at the API boundary), Python floats become `ℚ`, functions
that may raise become `Except`-valued, and the external PDF/OCR capabilities
are modelled as an explicit environment of oracle results.  All definitions
are executable and follow the source line by line.
-/

attribute [local semireducible] Rat.add Rat.mul Rat.inv Rat.sub

deriving instance DecidableEq for Except

/-! ### Character-level helpers (Python `str` semantics, ASCII fragment) -/

/-- Whitespace characters recognised by Python `str.strip` and the regex
class `\s` (ASCII fragment). -/
def pyWs (c : Char) : Bool :=
  c = ' ' || c = '\t' || c = '\n' || c = '\r' || c = '\x0b' || c = '\x0c'

/-- Python `str.upper` on a single ASCII character. -/
def pyUpper (c : Char) : Char :=
  if 'a' ≤ c && c ≤ 'z' then Char.ofNat (c.toNat - 32) else c

/-- Membership in the regex class `[A-Z]`. -/
def isUpperAlpha (c : Char) : Bool := 'A' ≤ c && c ≤ 'Z'

/-- Membership in the regex class `[a-z]`. -/
def isLowerAlpha (c : Char) : Bool := 'a' ≤ c && c ≤ 'z'

/-- Membership in the regex class `\d` = `[0-9]`. -/
def isDigitCh (c : Char) : Bool := '0' ≤ c && c ≤ '9'

/-- Does `pat` occur as a prefix of `l`? -/
def startsWithSeq : List Char → List Char → Bool
  | [], _ => true
  | _ :: _, [] => false
  | p :: ps, c :: cs => p = c && startsWithSeq ps cs

/-- Does `pat` occur as a contiguous subsequence of `l`?  This is Python's
`pat in l` substring test. -/
def containsSeq (pat : List Char) : List Char → Bool
  | [] => startsWithSeq pat []
  | c :: cs => startsWithSeq pat (c :: cs) || containsSeq pat cs

/-- Remove leading whitespace (`str.lstrip`). -/
def trimLeftWs (l : List Char) : List Char := l.dropWhile pyWs

/-- Python `str.strip`: remove leading and trailing whitespace. -/
def pyStrip (l : List Char) : List Char :=
  (trimLeftWs ((trimLeftWs l).reverse)).reverse

/-! ### The state-code table (`STATE_CODES`, `gst_code_to_state`) -/

/-- The static 2-digit-code → state-name table `STATE_CODES` of `chat.py`. -/
def STATE_CODES : List (String × String) := [
  ("01", "Jammu & Kashmir"), ("02", "Himachal Pradesh"), ("03", "Punjab"),
  ("04", "Chandigarh"), ("05", "Uttarakhand"), ("06", "Haryana"), ("07", "Delhi"),
  ("08", "Rajasthan"), ("09", "Uttar Pradesh"), ("10", "Bihar"), ("11", "Sikkim"),
  ("12", "Arunachal Pradesh"), ("13", "Nagaland"), ("14", "Manipur"), ("15", "Mizoram"),
  ("16", "Tripura"), ("17", "Meghalaya"), ("18", "Assam"), ("19", "West Bengal"),
  ("20", "Jharkhand"), ("21", "Odisha"), ("22", "Chhattisgarh"), ("23", "Madhya Pradesh"),
  ("24", "Gujarat"), ("25", "Daman & Diu"), ("26", "Dadra & Nagar Haveli"),
  ("27", "Maharashtra"), ("28", "Karnataka"), ("29", "Goa"), ("30", "Lakshadweep"),
  ("31", "Kerala"), ("32", "Tamil Nadu"), ("33", "Puducherry"), ("34", "Andaman & Nicobar"),
  ("35", "Telangana"), ("36", "Andhra Pradesh"), ("37", "Ladakh")]

/-- Source `gst_code_to_state`: `STATE_CODES.get(code, "")`, i.e. the Python
dict lookup with default `""`. -/
def gst_code_to_state (code : String) : String :=
  match STATE_CODES.find? (fun p => p.1 == code) with
  | some p => p.2
  | none => ""

/-! ### String replacement (Python `str.replace` with the source's fixed
patterns, each as a structurally recursive left-to-right scan) -/

/-- Python `.replace("₹", "")`. -/
def removeRupee : List Char → List Char
  | [] => []
  | '₹' :: cs => removeRupee cs
  | c :: cs => c :: removeRupee cs

/-- Python `.replace("Rs.", "")`. -/
def removeRsDot : List Char → List Char
  | 'R' :: 's' :: '.' :: cs => removeRsDot cs
  | c :: cs => c :: removeRsDot cs
  | [] => []

/-- Python `.replace("INR", "")`. -/
def removeINR : List Char → List Char
  | 'I' :: 'N' :: 'R' :: cs => removeINR cs
  | c :: cs => c :: removeINR cs
  | [] => []

/-- Python `.replace(",", "")`. -/
def removeCommas : List Char → List Char
  | [] => []
  | ',' :: cs => removeCommas cs
  | c :: cs => c :: removeCommas cs

/-! ### The numeric normalizer (`safe_float`) -/

/-- Numeric value of a digit string (most significant first). -/
def digitsVal (l : List Char) : Nat :=
  l.foldl (fun a c => 10 * a + (c.toNat - 48)) 0

/-- Exponent digits after an optional sign: non-empty digit run consuming the
whole remainder, as Python `float` requires. -/
def parseExpDigits (l : List Char) : Option Nat :=
  if l.takeWhile isDigitCh ≠ [] ∧ l.dropWhile isDigitCh = [] then
    some (digitsVal (l.takeWhile isDigitCh))
  else none

/-- Exponent part of a Python float literal (after the `e`/`E`). -/
def parseExp : List Char → Option Int
  | '+' :: r => (parseExpDigits r).map (fun n => (n : Int))
  | '-' :: r => (parseExpDigits r).map (fun n => -(n : Int))
  | r => (parseExpDigits r).map (fun n => (n : Int))

/-- Mantissa of a Python float literal: `digits [. digits]` or `. digits`,
with at least one digit overall.  Returns the value and the unconsumed rest. -/
def parseMantissa (l : List Char) : Option (ℚ × List Char) :=
  match l.dropWhile isDigitCh with
  | '.' :: r2 =>
    if l.takeWhile isDigitCh = [] ∧ r2.takeWhile isDigitCh = [] then none
    else some ((digitsVal (l.takeWhile isDigitCh) : ℚ) +
               (digitsVal (r2.takeWhile isDigitCh) : ℚ) /
                 (10 : ℚ) ^ (r2.takeWhile isDigitCh).length,
               r2.dropWhile isDigitCh)
  | r1 => if l.takeWhile isDigitCh = [] then none
          else some ((digitsVal (l.takeWhile isDigitCh) : ℚ), r1)

/-- Scale a mantissa by a decimal exponent. -/
def applyExp (q : ℚ) (e : Int) : ℚ :=
  if 0 ≤ e then q * (10 : ℚ) ^ e.toNat else q / (10 : ℚ) ^ (-e).toNat

/-- Leading sign of a Python float literal. -/
def splitSign : List Char → ℚ × List Char
  | '+' :: r => (1, r)
  | '-' :: r => (-1, r)
  | r => (1, r)

/-- Python `float(s)` on a string drawn from the residue alphabet
`[0-9\-\.\+eE]`: optional sign, mantissa, optional exponent; `none` models
`ValueError`.  (Exact rational value; the embedding uses `ℚ` for floats.) -/
def pyFloatOfChars (l : List Char) : Option ℚ :=
  match parseMantissa (splitSign l).2 with
  | none => none
  | some (m, rest) =>
    match rest with
    | [] => some ((splitSign l).1 * m)
    | 'e' :: r => (parseExp r).map (fun e => (splitSign l).1 * applyExp m e)
    | 'E' :: r => (parseExp r).map (fun e => (splitSign l).1 * applyExp m e)
    | _ => none

/-- Cleanup chain of `safe_float` (source lines 97–99): strip, delete the
currency markers `₹`/`Rs.`/`INR` and commas, map `O`/`o` to `0`, then drop
every character outside `[0-9\-\.\+eE]`. -/
def safeFloatClean (x : List Char) : List Char :=
  ((removeCommas (removeINR (removeRsDot (removeRupee (pyStrip x))))).map
      (fun c => if c = 'O' || c = 'o' then '0' else c)).filter
    (fun c => isDigitCh c || c = '-' || c = '.' || c = '+' || c = 'e' || c = 'E')

/-- Body of the `try` block of `safe_float`: `float(s) if s else 0.0`, where
a failed parse raises (`Except.error` models the `ValueError`). -/
def safeFloatBody (x : String) : Except String ℚ :=
  match safeFloatClean x.data with
  | [] => Except.ok 0
  | s => match pyFloatOfChars s with
         | some q => Except.ok q
         | none => Except.error "ValueError"

/-- Source `safe_float`: the `try`/`except` wrapper returning `0.0` whenever
the body raises. -/
def safe_float (x : String) : ℚ :=
  match safeFloatBody x with
  | Except.ok q => q
  | Except.error _ => 0

/-! ### IEEE-754 overflow refinement of the float model

`float()` in CPython parses a decimal literal and rounds it to the nearest
IEEE-754 binary64 value; magnitudes at or beyond `2 ^ 1024 - 2 ^ 970` (the
midpoint between the largest finite double and `2 ^ 1024`, which
round-to-nearest-even sends upward) overflow to `inf` / `-inf` WITHOUT
raising, so `safe_float`'s `except` branch is not taken and the infinity is
returned.  The refinement below keeps finite values exact (rounding and
gradual underflow always produce finite doubles, so they cannot affect
finiteness) and adds exactly this overflow behaviour. -/

/-- A CPython `float` value: a finite (here exact rational) value or one of
the two infinities produced by overflow.  (`nan` is unreachable here: the
residue alphabet `[0-9\-\.\+eE]` cannot spell it.) -/
inductive PyFloat where
  | finite : ℚ → PyFloat
  | inf : PyFloat
  | ninf : PyFloat
deriving DecidableEq

/-- Discriminator: is this `float` value finite? -/
def PyFloat.isFinite : PyFloat → Bool
  | PyFloat.finite _ => true
  | _ => false

/-- Smallest positive magnitude that IEEE-754 binary64 round-to-nearest-even
overflows to `inf`: `2 ^ 1024 - 2 ^ 970` (built from `Nat` so that kernel
arithmetic can evaluate it). -/
def ovfBound : ℤ := ((2 ^ 1024 - 2 ^ 970 : ℕ) : ℤ)

/-- Round an exact parsed value into the double range: `±inf` at or beyond
the overflow threshold, the exact value otherwise. -/
def floatOfRat (q : ℚ) : PyFloat :=
  if (ovfBound : ℚ) ≤ q then PyFloat.inf
  else if q ≤ -(ovfBound : ℚ) then PyFloat.ninf
  else PyFloat.finite q

/-- Python `float(s)` on the residue alphabet, overflow included: the exact
parse of `pyFloatOfChars` rounded into the double range. -/
def pyFloatOfCharsD (l : List Char) : Option PyFloat :=
  (pyFloatOfChars l).map floatOfRat

/-- Body of the `try` block of `safe_float` (source lines 97-100) under the
overflow-aware float model: same cleanup, same `ValueError` on a failed
parse, but a successful out-of-range parse is `inf`, not an error. -/
def safeFloatBodyD (x : String) : Except String PyFloat :=
  match safeFloatClean x.data with
  | [] => Except.ok (PyFloat.finite 0)
  | s => match pyFloatOfCharsD s with
         | some v => Except.ok v
         | none => Except.error "ValueError"

/-- Source `safe_float` under the overflow-aware float model: the
`try`/`except` wrapper returning `0.0` whenever the body raises. -/
def safe_floatD (x : String) : PyFloat :=
  match safeFloatBodyD x with
  | Except.ok v => v
  | Except.error _ => PyFloat.finite 0

/-- The overflow threshold is positive. -/
theorem ovfBound_pos : (0 : ℤ) < ovfBound := by
  have h1 : (2 : ℕ) ^ 970 < 2 ^ 1024 := Nat.pow_lt_pow_right (by norm_num) (by norm_num)
  simp only [ovfBound]
  omega

set_option maxRecDepth 8000 in
set_option maxHeartbeats 1600000 in
/-- C6 (counterexample): the claim says the numeric normalizer always
returns a FINITE float, but CPython `float` overflows to infinity instead
of raising: on the 309-digit literal `2 * 10 ^ 308` (beyond the double
range, like `"1e999"`) the normalizer returns `inf`, which is not finite —
in particular it is not the claimed 0.0 fallback. -/
theorem safe_float_overflow_cex :
    safe_floatD "200000000000000000000000000000000000000000000000000000000000000000000000000000000000000000000000000000000000000000000000000000000000000000000000000000000000000000000000000000000000000000000000000000000000000000000000000000000000000000000000000000000000000000000000000000000000000000000000000000000000000000000" = PyFloat.inf ∧
    (safe_floatD "200000000000000000000000000000000000000000000000000000000000000000000000000000000000000000000000000000000000000000000000000000000000000000000000000000000000000000000000000000000000000000000000000000000000000000000000000000000000000000000000000000000000000000000000000000000000000000000000000000000000000000000").isFinite = false := by
  decide

/-- C6 (amended): the numeric normalizer is total and never raises — the
`try` body's value is always delivered and any `ValueError` is mapped to
0.0 — but its result is not always finite: a successfully parsed value at
or beyond the IEEE-754 double overflow threshold yields `inf` (resp.
`-inf`), and only parses strictly inside the double range give a finite
result, which is then the exact parsed value, agreeing with the rational
model `safe_float`. -/
theorem safe_float_overflow_spec (x : String) :
    (∀ v, safeFloatBodyD x = Except.ok v → safe_floatD x = v) ∧
    (∀ e, safeFloatBodyD x = Except.error e → safe_floatD x = PyFloat.finite 0) ∧
    (∀ q : ℚ, pyFloatOfChars (safeFloatClean x.data) = some q →
      ((ovfBound : ℚ) ≤ q → safe_floatD x = PyFloat.inf) ∧
      (q ≤ -(ovfBound : ℚ) → safe_floatD x = PyFloat.ninf) ∧
      (-(ovfBound : ℚ) < q → q < (ovfBound : ℚ) →
        safe_floatD x = PyFloat.finite q ∧ safe_float x = q)) := by
  refine ⟨fun v h => by simp [safe_floatD, h], fun e h => by simp [safe_floatD, h],
    fun q hq => ?_⟩
  have hne : safeFloatClean x.data ≠ [] := by
    intro h0
    rw [h0, show pyFloatOfChars [] = none from rfl] at hq
    exact Option.noConfusion hq
  have hbodyD : safeFloatBodyD x = Except.ok (floatOfRat q) := by
    unfold safeFloatBodyD
    cases hcl : safeFloatClean x.data with
    | nil => exact absurd hcl hne
    | cons a as =>
      rw [hcl] at hq
      simp [pyFloatOfCharsD, hq]
  have hbodyQ : safeFloatBody x = Except.ok q := by
    unfold safeFloatBody
    cases hcl : safeFloatClean x.data with
    | nil => exact absurd hcl hne
    | cons a as =>
      rw [hcl] at hq
      simp [hq]
  have hD : safe_floatD x = floatOfRat q := by simp [safe_floatD, hbodyD]
  have hQ : safe_float x = q := by simp [safe_float, hbodyQ]
  refine ⟨fun h => ?_, fun h => ?_, fun h1 h2 => ⟨?_, hQ⟩⟩
  · rw [hD]
    unfold floatOfRat
    rw [if_pos h]
  · have hb : (0 : ℚ) < (ovfBound : ℚ) := by exact_mod_cast ovfBound_pos
    rw [hD]
    unfold floatOfRat
    rw [if_neg (by linarith), if_pos h]
  · rw [hD]
    unfold floatOfRat
    rw [if_neg (not_le.mpr h2), if_neg (not_le.mpr h1)]

set_option maxRecDepth 8000 in
set_option maxHeartbeats 1600000 in
/-- Closed instance of `safe_float_overflow_spec`: the 309-digit overflow
literal parses to `2 * 10 ^ 308` and lands on `inf`; the in-range input
`"12.5"` parses to the finite exact value `25/2`. -/
theorem safe_float_overflow_spec_witness :
    safe_floatD "200000000000000000000000000000000000000000000000000000000000000000000000000000000000000000000000000000000000000000000000000000000000000000000000000000000000000000000000000000000000000000000000000000000000000000000000000000000000000000000000000000000000000000000000000000000000000000000000000000000000000000000" = PyFloat.inf ∧
    safe_floatD "12.5" = PyFloat.finite (25/2) :=
  ⟨((safe_float_overflow_spec "200000000000000000000000000000000000000000000000000000000000000000000000000000000000000000000000000000000000000000000000000000000000000000000000000000000000000000000000000000000000000000000000000000000000000000000000000000000000000000000000000000000000000000000000000000000000000000000000000000000000000000000").2.2
      (((2 * 10 ^ 308 : ℕ) : ℚ)) (by decide)).1 (by decide),
   (((safe_float_overflow_spec "12.5").2.2 ((25/2 : ℚ)) (by decide)).2.2
      (by decide) (by decide)).1⟩

/-- C9: the state-code lookup over the static 37-entry table returns the
empty string for every 2-digit code absent from the table (not an error),
and returns "Maharashtra" for the code "27". -/
theorem state_code_lookup_spec (code : String) (_hlen : code.length = 2)
    (habs : ∀ p ∈ STATE_CODES, p.1 ≠ code) :
    gst_code_to_state code = "" ∧
    gst_code_to_state "27" = "Maharashtra" ∧
    STATE_CODES.length = 37 := by
  refine ⟨?_, by decide, by decide⟩
  have hnone : STATE_CODES.find? (fun p => p.1 == code) = none := by
    rw [List.find?_eq_none]
    intro p hp
    simpa using habs p hp
  simp [gst_code_to_state, hnone]

/-- Closed instance of `state_code_lookup_spec` at the absent code "99". -/
theorem state_code_lookup_spec_witness :
    gst_code_to_state "99" = "" ∧
    gst_code_to_state "27" = "Maharashtra" ∧
    STATE_CODES.length = 37 :=
  state_code_lookup_spec "99" (by decide) (by decide)

/-! ### The line normalizer (`normalize_ocr_line`) -/

/-- Python `.replace("\t", " ")`. -/
def replaceTabs : List Char → List Char
  | [] => []
  | '\t' :: cs => ' ' :: replaceTabs cs
  | c :: cs => c :: replaceTabs cs

/-- Python `.replace("C6ST", "CGST")`. -/
def replaceC6ST : List Char → List Char
  | 'C' :: '6' :: 'S' :: 'T' :: cs => 'C' :: 'G' :: 'S' :: 'T' :: replaceC6ST cs
  | c :: cs => c :: replaceC6ST cs
  | [] => []

/-- Python `.replace("S6ST", "SGST")`. -/
def replaceS6ST : List Char → List Char
  | 'S' :: '6' :: 'S' :: 'T' :: cs => 'S' :: 'G' :: 'S' :: 'T' :: replaceS6ST cs
  | c :: cs => c :: replaceS6ST cs
  | [] => []

/-- Python `.replace("1GST", "IGST")`. -/
def replace1GST : List Char → List Char
  | '1' :: 'G' :: 'S' :: 'T' :: cs => 'I' :: 'G' :: 'S' :: 'T' :: replace1GST cs
  | c :: cs => c :: replace1GST cs
  | [] => []

mutual

/-- Python `re.sub(r'\s{2,}', ' ', ln)`: each maximal whitespace run of
length at least two becomes one space; single whitespace characters stay. -/
def collapseWs : List Char → List Char
  | [] => []
  | c :: cs =>
    if pyWs c then
      match cs with
      | [] => [c]
      | d :: _ => if pyWs d then ' ' :: skipWsCollapse cs else c :: collapseWs cs
    else c :: collapseWs cs

/-- Consume the remainder of a whitespace run already replaced by `' '`. -/
def skipWsCollapse : List Char → List Char
  | [] => []
  | c :: cs => if pyWs c then skipWsCollapse cs else c :: collapseWs cs

end

/-- Pipeline of `normalize_ocr_line` after the empty-line guard: strip, tab
to space, the three OCR-misread token fixes, then whitespace collapsing. -/
def normalizeLineCore (l : List Char) : List Char :=
  collapseWs (replace1GST (replaceS6ST (replaceC6ST (replaceTabs (pyStrip l)))))

/-- Source `normalize_ocr_line`. -/
def normalize_ocr_line (s : String) : String :=
  if s = "" then "" else String.mk (normalizeLineCore s.data)

/-! ### Line merging (orchestrator lines 187–199) -/

/-- The deduplication loop of `extract_fields_from_pdfbytes` (lines
194–199): keep the first occurrence of each line, tracking a `seen` set. -/
def firstSeen : List String → List String → List String
  | [], _ => []
  | l :: ls, seen =>
    if l ∈ seen then firstSeen ls seen else l :: firstSeen ls (l :: seen)

/-- Merge of text-layer lines and OCR lines: OCR lines are appended when not
already present (line 190), then the whole list is deduplicated. -/
def merged_lines (tl ocr : List String) : List String :=
  firstSeen (tl ++ ocr.filter (fun l => decide (l ∉ tl))) []

/-! ### Invoice-number extractor (`extract_invoice_number_from_lines`) -/

/-- Membership in the regex class `[A-Z0-9 slash hyphen]`. -/
def isInvTokCh (c : Char) : Bool :=
  isUpperAlpha c || isDigitCh c || c = '/' || c = '-'

/-- Semantics of `re.search(r"[A-Z0-9 slash hyphen]{3,}", s)`: the leftmost position
where a run of at least three class characters starts wins, and the greedy
quantifier extends the match to the whole maximal run. -/
def searchRun3 : List Char → Option (List Char)
  | [] => none
  | c :: cs =>
    if isInvTokCh c && 3 ≤ ((c :: cs).takeWhile isInvTokCh).length then
      some ((c :: cs).takeWhile isInvTokCh)
    else searchRun3 cs

/-- Source `extract_invoice_number_from_lines`: the single regex search over
the `"\n"`-joined lines; no label is ever consulted. -/
def extract_invoice_number_from_lines (lines : List String) : String :=
  match searchRun3 (String.intercalate "\n" lines).data with
  | some r => String.mk r
  | none => ""

mutual

/-- Maximal runs of `[A-Z0-9 slash hyphen]` characters in a text, scanning outside a
run.  Together with `invRunsIn` this is the spec-side description used to
characterise the regex search. -/
def invRunsOut : List Char → List (List Char)
  | [] => []
  | c :: cs => if isInvTokCh c then invRunsIn [c] cs else invRunsOut cs

/-- Maximal-run scanner inside a run; `acc` holds the run so far, reversed. -/
def invRunsIn (acc : List Char) : List Char → List (List Char)
  | [] => [acc.reverse]
  | c :: cs =>
    if isInvTokCh c then invRunsIn (c :: acc) cs
    else acc.reverse :: invRunsOut cs

end

/-- Spec-side invoice-number extractor, written from the amended claim: take
the first maximal run of at least 3 characters from `[A-Z0-9 slash hyphen]` anywhere in
the joined text, or the empty string when there is none. -/
def invoiceNumberFirstRun (lines : List String) : String :=
  match ((invRunsOut (String.intercalate "\n" lines).data).filter
          (fun r => 3 ≤ r.length)).head? with
  | some r => String.mk r
  | none => ""

/-! ### GSTIN extractor (`find_gstins_in_text`, `extract_gstins_from_lines`) -/

/-- Membership in the regex class `[0-9A-Za-z]`. -/
def isAlnumCh (c : Char) : Bool := isDigitCh c || isUpperAlpha c || isLowerAlpha c

/-- Source line 111: `re.sub(r'[^0-9A-Za-z]', '', text.upper())`. -/
def cleanAlnumUpper (l : List Char) : List Char := (l.map pyUpper).filter isAlnumCh

/-- Character class at position `i` of the GSTIN regex
`\d{2}[A-Z]{5}\d{4}[A-Z]{1}[A-Z\d]{1}Z[A-Z\d]{1}`. -/
def gstinCharOk (i : Nat) (c : Char) : Bool :=
  if i < 2 then isDigitCh c
  else if i < 7 then isUpperAlpha c
  else if i < 11 then isDigitCh c
  else if i = 11 then isUpperAlpha c
  else if i = 12 then isUpperAlpha c || isDigitCh c
  else if i = 13 then c = 'Z'
  else isUpperAlpha c || isDigitCh c

/-- Does this 15-character chunk match the GSTIN regex? -/
def isGstinChunk (l : List Char) : Bool :=
  l.length = 15 && (List.range 15).all (fun i => gstinCharOk i (l.getD i ' '))

/-- Semantics of `re.findall(GSTIN_REGEX, s)`: scan left to right; each match
consumes its 15 characters, so matches never overlap.  The fuel argument
(instantiated with the text length) only makes the recursion structural. -/
def findallGstinAux : Nat → List Char → List (List Char)
  | _, [] => []
  | 0, _ :: _ => []
  | fuel + 1, c :: cs =>
    if isGstinChunk ((c :: cs).take 15) then
      (c :: cs).take 15 :: findallGstinAux fuel ((c :: cs).drop 15)
    else findallGstinAux fuel cs

/-- All (non-overlapping, left-to-right) GSTIN regex matches in a text. -/
def findallGstin (l : List Char) : List (List Char) := findallGstinAux l.length l

/-- Source `find_gstins_in_text`: clean the text, find all matches, keep the
first two (`found[:2]`). -/
def find_gstins_in_text (text : String) : List String :=
  ((findallGstin (cleanAlnumUpper text.data)).take 2).map (fun l => String.mk l)

/-- Source `extract_state_code_from_gstin`: first two characters if they are
digits, else the empty string. -/
def extract_state_code_from_gstin (g : String) : String :=
  if 2 ≤ (pyStrip g.data).length ∧ ((pyStrip g.data).take 2).all isDigitCh then
    String.mk ((pyStrip g.data).take 2)
  else ""

/-- Result tuple of `extract_gstins_from_lines`. -/
structure GstinOut where
  seller : String
  sellerState : String
  buyer : String
  buyerState : String
deriving DecidableEq

/-- Source `extract_gstins_from_lines`: first match is Seller, second is
Buyer, each with its derived state-code prefix. -/
def extract_gstins_from_lines (lines : List String) : GstinOut :=
  match find_gstins_in_text (String.intercalate "\n" lines) with
  | [] => ⟨"", extract_state_code_from_gstin "", "", extract_state_code_from_gstin ""⟩
  | [s] => ⟨s, extract_state_code_from_gstin s, "", extract_state_code_from_gstin ""⟩
  | s :: b :: _ => ⟨s, extract_state_code_from_gstin s, b, extract_state_code_from_gstin b⟩

/-! ### Tax-amount extractor (`extract_gst_values_from_lines`) -/

/-- Membership in the regex class `[\d,]`. -/
def isNumCh (c : Char) : Bool := isDigitCh c || c = ','

mutual

/-- Scanner for `re.findall(r'[\d,]+\.\d+|[\d,]+', ln)`, outside a token.
A token starts at any `[\d,]` character. -/
def numTokensOut : List Char → List (List Char)
  | [] => []
  | c :: cs => if isNumCh c then numTokensIn cs [c] else numTokensOut cs

/-- Scanner inside the `[\d,]+` part of a token (`acc` is reversed).  A dot
is absorbed only when a digit follows (first regex alternative); otherwise
the token ends at the dot, matching the backtracking semantics. -/
def numTokensIn : List Char → List Char → List (List Char)
  | [], acc => [acc.reverse]
  | '.' :: d :: ds, acc =>
    if isDigitCh d then numTokensFrac ds (d :: '.' :: acc)
    else if isNumCh d then acc.reverse :: numTokensIn ds [d]
    else acc.reverse :: numTokensOut ds
  | ['.'], acc => [acc.reverse]
  | c :: cs, acc =>
    if isNumCh c then numTokensIn cs (c :: acc) else acc.reverse :: numTokensOut cs

/-- Scanner inside the `\.\d+` part of a token (`acc` is reversed). -/
def numTokensFrac : List Char → List Char → List (List Char)
  | [], acc => [acc.reverse]
  | c :: cs, acc =>
    if isDigitCh c then numTokensFrac cs (c :: acc)
    else if isNumCh c then acc.reverse :: numTokensIn cs [c]
    else acc.reverse :: numTokensOut cs

end

/-- All matches of `[\d,]+\.\d+|[\d,]+` in a line. -/
def findNums (l : List Char) : List (List Char) := numTokensOut l

/-- Result dict of `extract_gst_values_from_lines`. -/
structure GstVals where
  Taxable_Value : ℚ
  CGST : ℚ
  SGST : ℚ
  IGST : ℚ
deriving DecidableEq

/-- Line 176: `nums = [safe_float(n) for n in re.findall(r'[\d,]+\.\d+|[\d,]+', ln)]`. -/
def lineNums (ln : String) : List ℚ :=
  (findNums ln.data).map (fun n => safe_float (String.mk n))

/-- Python `nums or [0]`, the argument list of each `max` call. -/
def lineNums0 (ln : String) : List ℚ :=
  if lineNums ln = [] then [0] else lineNums ln

/-- One iteration of the loop of `extract_gst_values_from_lines` (lines
175–181): parse the numeric substrings of the line, then update each label
whose token occurs in the upper-cased line with `max(res[k], *(nums or [0]))`.
The four sequential dict updates of the source each touch a distinct key and
read only that key, so they are rendered as one record of four independent
conditional updates. -/
def gstStep (r : GstVals) (ln : String) : GstVals :=
  { Taxable_Value :=
      if containsSeq ['T','A','X','A','B','L','E'] (ln.data.map pyUpper) then
        (lineNums0 ln).foldl max r.Taxable_Value
      else r.Taxable_Value,
    CGST :=
      if containsSeq ['C','G','S','T'] (ln.data.map pyUpper) then
        (lineNums0 ln).foldl max r.CGST
      else r.CGST,
    SGST :=
      if containsSeq ['S','G','S','T'] (ln.data.map pyUpper) then
        (lineNums0 ln).foldl max r.SGST
      else r.SGST,
    IGST :=
      if containsSeq ['I','G','S','T'] (ln.data.map pyUpper) then
        (lineNums0 ln).foldl max r.IGST
      else r.IGST }

/-- Source `extract_gst_values_from_lines`. -/
def extract_gst_values_from_lines (lines : List String) : GstVals :=
  lines.foldl gstStep ⟨0, 0, 0, 0⟩

/-! ### The pipeline orchestrator (`extract_fields_from_pdfbytes`) -/

/-- Python `str.splitlines` (ASCII fragment: `\n`, `\r\n`, `\r`). -/
def splitlinesAux (acc : List Char) : List Char → List (List Char)
  | [] => if acc = [] then [] else [acc.reverse]
  | '\r' :: '\n' :: cs => acc.reverse :: splitlinesAux [] cs
  | '\n' :: cs => acc.reverse :: splitlinesAux [] cs
  | '\r' :: cs => acc.reverse :: splitlinesAux [] cs
  | c :: cs => splitlinesAux (c :: acc) cs

/-- Python `str.splitlines` on a string. -/
def pySplitlines (s : String) : List String :=
  (splitlinesAux [] s.data).map (fun l => String.mk l)

/-- The comprehension `[normalize_ocr_line(l) for l in t.splitlines() if
l.strip()]` shared by line 187 (text layer) and line 157 (OCR output). -/
def linesOfText (t : String) : List String :=
  ((pySplitlines t).filter (fun l => decide (pyStrip l.data ≠ []))).map normalize_ocr_line

/-- Environment of external capabilities for one extraction call: the result
of the text-layer read (the `try` block of `read_text_layer`) and the result
of rasterising page 0 and running OCR on it (`pdf_page_to_image` +
`pytesseract`); either may raise, which `Except.error` models. -/
structure PdfEnv where
  textLayer : Except String String
  pageOcr : Except String String
deriving DecidableEq

/-- Source `read_text_layer`: any internal parsing error is swallowed and
treated as "no text layer". -/
def read_text_layer (env : PdfEnv) : String :=
  match env.textLayer with
  | Except.ok t => t
  | Except.error _ => ""

/-- Source `ocr_lines_from_image` applied to the recognised raw text. -/
def ocr_lines_from_image (raw : String) : List String := linesOfText raw

/-- The record assembled by `extract_fields_from_pdfbytes`. -/
structure InvoiceRecord where
  Invoice_Number : String
  Seller_GST : String
  Seller_State : String
  Seller_State_Code : String
  Buyer_GST : String
  Buyer_State : String
  Buyer_State_Code : String
  IGST : ℚ
  CGST : ℚ
  SGST : ℚ
  Taxable_Value : ℚ
  Total_Amount : ℚ
deriving DecidableEq

/-- Source `extract_fields_from_pdfbytes`.  The rasterize+OCR block is inside
`try/except: pass`, so an OCR failure contributes no lines; the text-layer
reader swallows its own failures; the body contains no other raise site, so
the function always returns `Except.ok`. -/
def extract_fields_from_pdfbytes (env : PdfEnv) : Except String InvoiceRecord :=
  let lines := linesOfText (read_text_layer env)
  let lines2 := match env.pageOcr with
    | Except.ok raw =>
        lines ++ (ocr_lines_from_image raw).filter (fun l => decide (l ∉ lines))
    | Except.error _ => lines
  let merged := firstSeen lines2 []
  let gv := extract_gst_values_from_lines merged
  let g := extract_gstins_from_lines merged
  let inv := extract_invoice_number_from_lines merged
  Except.ok {
    Invoice_Number := inv,
    Seller_GST := g.seller,
    Seller_State := gst_code_to_state g.sellerState,
    Seller_State_Code := g.sellerState,
    Buyer_GST := g.buyer,
    Buyer_State := gst_code_to_state g.buyerState,
    Buyer_State_Code := g.buyerState,
    IGST := gv.IGST,
    CGST := gv.CGST,
    SGST := gv.SGST,
    Taxable_Value := gv.Taxable_Value,
    Total_Amount := gv.Taxable_Value + gv.IGST + gv.CGST + gv.SGST }

/-! ### C1: error propagation of the extraction call -/

set_option maxHeartbeats 1600000 in
/-- C1 counterexample: on an input whose byte stream is not a valid PDF —
both the text-layer read and the rasterize+OCR step fail — the extraction
call does not propagate any hard failure; it returns the fully defaulted
record.  This contradicts the claim that malformed input is the one
condition that propagates to the caller. -/
theorem extract_fields_invalid_pdf_cex :
    extract_fields_from_pdfbytes ⟨Except.error "invalid pdf", Except.error "invalid pdf"⟩ =
      Except.ok ⟨"", "", "", "", "", "", "", 0, 0, 0, 0, 0⟩ := by decide

set_option maxHeartbeats 1600000 in
/-- C1 (amended): the extraction call never propagates a hard failure: for
every environment, including one whose byte stream is not a valid PDF, it
returns a record; and when the text layer and the rasterize+OCR step both
fail, that record has every field defaulted. -/
theorem extract_fields_never_raises (env : PdfEnv) :
    (∃ r, extract_fields_from_pdfbytes env = Except.ok r) ∧
    (∀ e1 e2, env.textLayer = Except.error e1 → env.pageOcr = Except.error e2 →
      extract_fields_from_pdfbytes env =
        Except.ok ⟨"", "", "", "", "", "", "", 0, 0, 0, 0, 0⟩) := by
  refine ⟨⟨_, rfl⟩, ?_⟩
  intro e1 e2 h1 h2
  rcases env with ⟨tl, po⟩
  cases h1
  cases h2
  simp only [extract_fields_from_pdfbytes, read_text_layer]
  decide

/-- Closed instance of `extract_fields_never_raises` with both sources
failing. -/
theorem extract_fields_never_raises_witness :
    extract_fields_from_pdfbytes ⟨Except.error "x", Except.error "y"⟩ =
      Except.ok ⟨"", "", "", "", "", "", "", 0, 0, 0, 0, 0⟩ :=
  (extract_fields_never_raises ⟨Except.error "x", Except.error "y"⟩).2 "x" "y" rfl rfl

/-! ### C3: the total-amount law -/

/-- C3: for every record produced by the pipeline, `Total_Amount` equals the
arithmetic sum `Taxable_Value + IGST + CGST + SGST` of the values stored in
that same record. -/
theorem total_amount_law (env : PdfEnv) (r : InvoiceRecord)
    (h : extract_fields_from_pdfbytes env = Except.ok r) :
    r.Total_Amount = r.Taxable_Value + r.IGST + r.CGST + r.SGST := by
  rcases env with ⟨tl, po⟩
  cases po <;>
    · simp only [extract_fields_from_pdfbytes, Except.ok.injEq] at h
      subst h
      rfl

set_option maxHeartbeats 1600000 in
/-- Closed instance of `total_amount_law` on a document carrying one CGST
line. -/
theorem total_amount_law_witness :
    (⟨"CGST", "", "", "", "", "", "", 0, 2469/2, 0, 0, 2469/2⟩ :
        InvoiceRecord).Total_Amount =
      (⟨"CGST", "", "", "", "", "", "", 0, 2469/2, 0, 0, 2469/2⟩ :
        InvoiceRecord).Taxable_Value +
      (⟨"CGST", "", "", "", "", "", "", 0, 2469/2, 0, 0, 2469/2⟩ :
        InvoiceRecord).IGST +
      (⟨"CGST", "", "", "", "", "", "", 0, 2469/2, 0, 0, 2469/2⟩ :
        InvoiceRecord).CGST +
      (⟨"CGST", "", "", "", "", "", "", 0, 2469/2, 0, 0, 2469/2⟩ :
        InvoiceRecord).SGST :=
  total_amount_law ⟨Except.ok "CGST 1,234.50", Except.error "no"⟩
    ⟨"CGST", "", "", "", "", "", "", 0, 2469/2, 0, 0, 2469/2⟩ (by decide)

/-! ### C10: nonnegativity of the extracted tax values -/

/-- Folding `max` from a base never goes below the base. -/
theorem le_foldl_max (a : ℚ) (l : List ℚ) : a ≤ l.foldl max a := by
  induction l generalizing a with
  | nil => exact le_refl a
  | cons c cs ih => exact le_trans (le_max_left a c) (ih (max a c))

/-- One `gstStep` keeps all four accumulators nonnegative. -/
theorem gstStep_nonneg (r : GstVals) (ln : String)
    (h : 0 ≤ r.Taxable_Value ∧ 0 ≤ r.CGST ∧ 0 ≤ r.SGST ∧ 0 ≤ r.IGST) :
    0 ≤ (gstStep r ln).Taxable_Value ∧ 0 ≤ (gstStep r ln).CGST ∧
    0 ≤ (gstStep r ln).SGST ∧ 0 ≤ (gstStep r ln).IGST := by
  obtain ⟨h1, h2, h3, h4⟩ := h
  refine ⟨?_, ?_, ?_, ?_⟩ <;>
    · simp only [gstStep]
      split_ifs <;>
        first
          | assumption
          | exact le_trans h1 (le_foldl_max _ _)
          | exact le_trans h2 (le_foldl_max _ _)
          | exact le_trans h3 (le_foldl_max _ _)
          | exact le_trans h4 (le_foldl_max _ _)

/-- C10: every tax value returned by the tax-amount extractor is
nonnegative: the accumulators start at 0 and only ever move up to a
maximum. -/
theorem gst_values_nonneg (lines : List String) :
    0 ≤ (extract_gst_values_from_lines lines).Taxable_Value ∧
    0 ≤ (extract_gst_values_from_lines lines).CGST ∧
    0 ≤ (extract_gst_values_from_lines lines).SGST ∧
    0 ≤ (extract_gst_values_from_lines lines).IGST := by
  have key : ∀ (ls : List String) (r : GstVals),
      0 ≤ r.Taxable_Value ∧ 0 ≤ r.CGST ∧ 0 ≤ r.SGST ∧ 0 ≤ r.IGST →
      0 ≤ (ls.foldl gstStep r).Taxable_Value ∧
      0 ≤ (ls.foldl gstStep r).CGST ∧
      0 ≤ (ls.foldl gstStep r).SGST ∧
      0 ≤ (ls.foldl gstStep r).IGST := by
    intro ls
    induction ls with
    | nil => intro r h; simpa using h
    | cons ln rest ih =>
      intro r h
      exact ih (gstStep r ln) (gstStep_nonneg r ln h)
  exact key lines ⟨0, 0, 0, 0⟩ (by norm_num)

/-! ### C5: uniqueness and order of the merged line set -/

/-- The dedup loop only consults membership of `seen`, so any two
membership-equivalent `seen` lists give the same result. -/
theorem firstSeen_congr (l : List String) :
    ∀ s t, (∀ x, x ∈ s ↔ x ∈ t) → firstSeen l s = firstSeen l t := by
  induction l with
  | nil => intro s t _; rfl
  | cons c ls ih =>
    intro s t hst
    by_cases hc : c ∈ s
    · rw [firstSeen, firstSeen, if_pos hc, if_pos ((hst c).1 hc)]
      exact ih s t hst
    · rw [firstSeen, firstSeen, if_neg hc, if_neg (fun h => hc ((hst c).2 h))]
      refine congrArg (List.cons c) (ih (c :: s) (c :: t) ?_)
      intro x
      simp only [List.mem_cons, hst x]

/-- Splitting the dedup loop at an append: the second half runs with the
first half's elements added to `seen`. -/
theorem firstSeen_append (a b : List String) :
    ∀ s, firstSeen (a ++ b) s = firstSeen a s ++ firstSeen b (a ++ s) := by
  induction a with
  | nil => intro s; rfl
  | cons c a' ih =>
    intro s
    by_cases hc : c ∈ s
    · rw [List.cons_append, firstSeen, if_pos hc, firstSeen, if_pos hc, ih s]
      refine congrArg _ (firstSeen_congr b _ _ ?_)
      intro x
      simp only [List.mem_append, List.mem_cons, List.cons_append]
      constructor
      · tauto
      · rintro ((rfl | h) | h) <;> tauto
    · rw [List.cons_append, firstSeen, if_neg hc, firstSeen, if_neg hc, ih (c :: s),
        List.cons_append]
      refine congrArg _ (congrArg _ (firstSeen_congr b _ _ ?_))
      intro x
      simp only [List.mem_append, List.mem_cons]
      tauto

/-- The dedup loop returns a subsequence of its input: first-seen order is
preserved. -/
theorem firstSeen_sublist (l : List String) : ∀ s, List.Sublist (firstSeen l s) l := by
  induction l with
  | nil => intro s; exact List.Sublist.refl []
  | cons c ls ih =>
    intro s
    by_cases hc : c ∈ s
    · rw [firstSeen, if_pos hc]
      exact (ih s).cons c
    · rw [firstSeen, if_neg hc]
      exact (ih (c :: s)).cons₂ c

/-- Membership in the dedup loop's output. -/
theorem mem_firstSeen (x : String) (l : List String) :
    ∀ s, x ∈ firstSeen l s ↔ x ∈ l ∧ x ∉ s := by
  induction l with
  | nil => intro s; simp [firstSeen]
  | cons c ls ih =>
    intro s
    by_cases hc : c ∈ s
    · rw [firstSeen, if_pos hc, ih s]
      simp only [List.mem_cons]
      constructor
      · rintro ⟨hx, hs⟩; exact ⟨Or.inr hx, hs⟩
      · rintro ⟨rfl | hx, hs⟩
        · exact absurd hc hs
        · exact ⟨hx, hs⟩
    · rw [firstSeen, if_neg hc]
      simp only [List.mem_cons, ih (c :: s), List.mem_cons, not_or]
      constructor
      · rintro (rfl | ⟨hx, _, hs⟩)
        · exact ⟨Or.inl rfl, hc⟩
        · exact ⟨Or.inr hx, hs⟩
      · rintro ⟨rfl | hx, hs⟩
        · exact Or.inl rfl
        · by_cases hxc : x = c
          · exact Or.inl hxc
          · exact Or.inr ⟨hx, hxc, hs⟩

/-- The dedup loop's output has no duplicates. -/
theorem firstSeen_nodup (l : List String) : ∀ s, (firstSeen l s).Nodup := by
  induction l with
  | nil => intro s; exact List.nodup_nil
  | cons c ls ih =>
    intro s
    by_cases hc : c ∈ s
    · rw [firstSeen, if_pos hc]; exact ih s
    · rw [firstSeen, if_neg hc]
      refine List.nodup_cons.2 ⟨?_, ih (c :: s)⟩
      intro hmem
      exact ((mem_firstSeen c ls (c :: s)).1 hmem).2 (List.mem_cons_self c s)

/-- C5: the merged line set contains no two identical lines, preserves
first-seen order (it is a subsequence of the concatenated input), contains
exactly the lines of the two inputs, and decomposes as the deduplicated
text-layer lines in original order followed by the OCR lines not already
present. -/
theorem merge_lines_unique_ordered (tl ocr : List String) :
    (merged_lines tl ocr).Nodup ∧
    merged_lines tl ocr =
      firstSeen tl [] ++ firstSeen (ocr.filter (fun l => decide (l ∉ tl))) tl ∧
    (∀ x, x ∈ merged_lines tl ocr ↔ x ∈ tl ∨ x ∈ ocr) ∧
    List.Sublist (merged_lines tl ocr) (tl ++ ocr.filter (fun l => decide (l ∉ tl))) := by
  refine ⟨firstSeen_nodup _ _, ?_, ?_, firstSeen_sublist _ _⟩
  · rw [merged_lines, firstSeen_append]
    refine congrArg _ (firstSeen_congr _ _ _ ?_)
    intro x
    simp
  · intro x
    rw [merged_lines, mem_firstSeen]
    simp only [List.mem_append, List.mem_filter, List.not_mem_nil, not_false_iff,
      and_true, decide_eq_true_eq]
    by_cases hx : x ∈ tl
    · simp [hx]
    · simp [hx]

/-! ### C7: the tax extractor computes a per-label maximum -/

/-- Spec-side description: the numeric substrings, in order, of every line
whose upper-cased form contains the label token. -/
def labelNums (lab : List Char) : List String → List ℚ
  | [] => []
  | ln :: ls =>
    if containsSeq lab (ln.data.map pyUpper) then lineNums ln ++ labelNums lab ls
    else labelNums lab ls

/-- The update one line applies to one accumulator field. -/
def gstFieldStep (lab : List Char) (acc : ℚ) (ln : String) : ℚ :=
  if containsSeq lab (ln.data.map pyUpper) then (lineNums0 ln).foldl max acc else acc

/-- Each field of the `gstStep` fold evolves independently by its own
`gstFieldStep`. -/
theorem foldl_gstStep_fields (lines : List String) :
    ∀ r : GstVals,
      (lines.foldl gstStep r).Taxable_Value =
        lines.foldl (gstFieldStep ['T','A','X','A','B','L','E']) r.Taxable_Value ∧
      (lines.foldl gstStep r).CGST =
        lines.foldl (gstFieldStep ['C','G','S','T']) r.CGST ∧
      (lines.foldl gstStep r).SGST =
        lines.foldl (gstFieldStep ['S','G','S','T']) r.SGST ∧
      (lines.foldl gstStep r).IGST =
        lines.foldl (gstFieldStep ['I','G','S','T']) r.IGST := by
  induction lines with
  | nil => intro r; exact ⟨rfl, rfl, rfl, rfl⟩
  | cons ln ls ih =>
    intro r
    obtain ⟨h1, h2, h3, h4⟩ := ih (gstStep r ln)
    exact ⟨h1, h2, h3, h4⟩

/-- Padding with the `[0]` default does not change a fold from a nonnegative
base. -/
theorem lineNums0_foldl (ln : String) (a : ℚ) (ha : 0 ≤ a) :
    (lineNums0 ln).foldl max a = (lineNums ln).foldl max a := by
  unfold lineNums0
  by_cases h : lineNums ln = []
  · rw [if_pos h, h]
    simp [max_eq_left ha]
  · rw [if_neg h]

/-- Folding the per-line updates of one label equals folding `max` over all
numeric substrings of that label's lines. -/
theorem label_fold_eq (lab : List Char) (lines : List String) :
    ∀ a : ℚ, 0 ≤ a →
      lines.foldl (gstFieldStep lab) a = (labelNums lab lines).foldl max a := by
  induction lines with
  | nil => intro a _; rfl
  | cons ln ls ih =>
    intro a ha
    by_cases h : containsSeq lab (ln.data.map pyUpper)
    · simp only [List.foldl_cons, gstFieldStep, if_pos h, labelNums]
      rw [ih _ (le_trans ha (le_foldl_max _ _)), lineNums0_foldl _ _ ha,
        List.foldl_append]
    · simp only [List.foldl_cons, gstFieldStep, if_neg h, labelNums]
      exact ih a ha

/-- C7: each of the four tax categories equals the maximum (0 when none) of
the numeric substrings parsed from the lines carrying that category's label
token, each category accumulating independently of the others. -/
theorem gst_values_max_characterization (lines : List String) :
    extract_gst_values_from_lines lines =
      ⟨(labelNums ['T','A','X','A','B','L','E'] lines).foldl max 0,
       (labelNums ['C','G','S','T'] lines).foldl max 0,
       (labelNums ['S','G','S','T'] lines).foldl max 0,
       (labelNums ['I','G','S','T'] lines).foldl max 0⟩ := by
  have hh := foldl_gstStep_fields lines ⟨0, 0, 0, 0⟩
  unfold extract_gst_values_from_lines
  rcases hfold : lines.foldl gstStep (⟨0, 0, 0, 0⟩ : GstVals) with ⟨tv, cg, sg, ig⟩
  rw [hfold] at hh
  obtain ⟨h1, h2, h3, h4⟩ := hh
  simp only [GstVals.mk.injEq]
  exact ⟨h1.trans (label_fold_eq _ lines 0 le_rfl),
         h2.trans (label_fold_eq _ lines 0 le_rfl),
         h3.trans (label_fold_eq _ lines 0 le_rfl),
         h4.trans (label_fold_eq _ lines 0 le_rfl)⟩

/-! ### C2: the invoice-number extractor -/

/-- C2 counterexample: the lines contain the label "Invoice Number" followed
by the token "XYZ", yet the extractor returns the earlier loose-pattern token
"FOO" — the source performs no label search at all, only the loose regex. -/
theorem invoice_number_no_label_search_cex :
    extract_invoice_number_from_lines ["FOO", "Invoice Number: XYZ"] = "FOO" ∧
    extract_invoice_number_from_lines ["FOO", "Invoice Number: XYZ"] ≠ "XYZ" := by
  constructor
  · decide
  · decide

/-- The in-run scanner produces the pending run (maximal from here) followed
by the runs of the remainder. -/
theorem invRunsIn_spec (l : List Char) :
    ∀ acc, invRunsIn acc l =
      (acc.reverse ++ l.takeWhile isInvTokCh) :: invRunsOut (l.dropWhile isInvTokCh) := by
  induction l with
  | nil => intro acc; simp [invRunsIn, invRunsOut]
  | cons c cs ih =>
    intro acc
    by_cases hc : isInvTokCh c
    · rw [invRunsIn, if_pos hc, ih (c :: acc), List.takeWhile_cons_of_pos hc,
        List.dropWhile_cons_of_pos hc]
      simp
    · rw [invRunsIn, if_neg hc, List.takeWhile_cons_of_neg hc,
        List.dropWhile_cons_of_neg hc, invRunsOut, if_neg hc]
      simp

/-- When the class-character prefix of a list is empty, dropping it is the
identity. -/
theorem dropWhile_eq_self_of_takeWhile_nil {p : Char → Bool} :
    ∀ l : List Char, l.takeWhile p = [] → l.dropWhile p = l := by
  intro l h
  cases l with
  | nil => rfl
  | cons c cs =>
    by_cases hc : p c
    · rw [List.takeWhile_cons_of_pos hc] at h
      exact absurd h (List.cons_ne_nil c _)
    · exact List.dropWhile_cons_of_neg hc

/-- The leftmost-match semantics of the regex search agrees with taking the
first maximal class run of length at least 3. -/
theorem searchRun3_eq_runs (l : List Char) :
    searchRun3 l =
      ((invRunsOut l).filter (fun r => 3 ≤ r.length)).head? := by
  have key : ∀ n (l : List Char), l.length ≤ n →
      searchRun3 l = ((invRunsOut l).filter (fun r => 3 ≤ r.length)).head? := by
    intro n
    induction n with
    | zero =>
      intro l hl
      have : l = [] := List.length_eq_zero.1 (Nat.le_zero.1 hl)
      subst this
      rfl
    | succ n ih =>
      intro l hl
      cases l with
      | nil => rfl
      | cons c cs =>
        by_cases hc : isInvTokCh c
        · have hout : invRunsOut (c :: cs) = invRunsIn [c] cs := by
            rw [invRunsOut, if_pos hc]
          have hlen : ((c :: cs).takeWhile isInvTokCh).length =
              (cs.takeWhile isInvTokCh).length + 1 := by
            rw [List.takeWhile_cons_of_pos hc]
            simp
          by_cases h3 : 3 ≤ ((c :: cs).takeWhile isInvTokCh).length
          · have h2 : 2 ≤ (cs.takeWhile isInvTokCh).length := by omega
            rw [searchRun3, if_pos (by simp [hc]; omega), hout, invRunsIn_spec cs [c]]
            rw [List.takeWhile_cons_of_pos hc]
            simp only [List.reverse_cons, List.reverse_nil, List.nil_append,
              List.singleton_append, List.filter_cons]
            simp [h2]
          · have h2 : (cs.takeWhile isInvTokCh).length < 2 := by omega
            rw [searchRun3, if_neg (by simp [hc]; omega), hout, invRunsIn_spec cs [c]]
            have hshort : (cs.takeWhile isInvTokCh).length ≤ 1 := by omega
            rw [List.filter_cons]
            have hfail : ¬ (3 ≤ ([c].reverse ++ cs.takeWhile isInvTokCh).length) := by
              simp only [List.reverse_cons, List.reverse_nil, List.nil_append,
                List.singleton_append, List.length_cons]
              omega
            simp only [decide_eq_true_eq, hfail, if_neg, ite_false]
            cases htw : cs.takeWhile isInvTokCh with
            | nil =>
              rw [dropWhile_eq_self_of_takeWhile_nil cs htw]
              exact ih cs (Nat.le_of_succ_le_succ hl)
            | cons x rest =>
              have hrest : rest = [] := by
                rw [htw] at hshort
                simp only [List.length_cons] at hshort
                exact List.length_eq_zero.1 (by omega)
              subst hrest
              obtain ⟨cs', hcs, hx, htw'⟩ :
                  ∃ cs', cs = x :: cs' ∧ isInvTokCh x = true ∧
                    cs'.takeWhile isInvTokCh = [] := by
                cases cs with
                | nil => simp [List.takeWhile] at htw
                | cons y ys =>
                  by_cases hy : isInvTokCh y
                  · rw [List.takeWhile_cons_of_pos hy] at htw
                    obtain ⟨rfl, h2⟩ := List.cons.inj htw
                    exact ⟨ys, rfl, hy, h2⟩
                  · rw [List.takeWhile_cons_of_neg hy] at htw
                    exact absurd htw.symm (List.cons_ne_nil x [])
              subst hcs
              rw [List.dropWhile_cons_of_pos hx,
                dropWhile_eq_self_of_takeWhile_nil cs' htw']
              have hstep : searchRun3 (x :: cs') = searchRun3 cs' := by
                rw [searchRun3, if_neg ?_]
                simp only [Bool.and_eq_true, decide_eq_true_eq, not_and]
                intro _
                rw [List.takeWhile_cons_of_pos hx, htw']
                simp
              rw [hstep]
              exact ih cs' (by simp only [List.length_cons] at hl ⊢; omega)
        · rw [searchRun3, if_neg (by simp [hc]), invRunsOut, if_neg hc]
          exact ih cs (Nat.le_of_succ_le_succ hl)
  exact key l.length l (le_refl _)

/-- C2 (amended): the extractor performs no label search; for every line
list it returns exactly the first maximal run of at least three characters
from the class uppercase letter / digit / slash / hyphen in the joined
text (the empty string when no such run exists). -/
theorem invoice_number_first_token_spec (lines : List String) :
    extract_invoice_number_from_lines lines = invoiceNumberFirstRun lines := by
  unfold extract_invoice_number_from_lines invoiceNumberFirstRun
  rw [searchRun3_eq_runs]

/-! ### C4: the GSTIN pair extractor -/

/-- Spec-side notion for C4: the positions of the cleaned text at which a
substring matching the GSTIN structural pattern starts. -/
def gstinMatchPositions (l : List Char) : List Nat :=
  (List.range l.length).filter (fun i => isGstinChunk ((l.drop i).take 15))

/-- C4 counterexample: this cleaned text contains exactly two substrings
matching the GSTIN structural pattern (starting at offsets 0 and 9), but the
two occurrences overlap, so the left-to-right non-overlapping `findall` scan
keeps only the first: the extractor returns one match, and Buyer stays
empty instead of being the second pattern substring of length 15. -/
theorem gstin_overlapping_matches_cex :
    (gstinMatchPositions (cleanAlnumUpper "11AAAAA1111AAZAA1111AAZA".data)).length = 2 ∧
    (find_gstins_in_text "11AAAAA1111AAZAA1111AAZA").length = 1 ∧
    (extract_gstins_from_lines ["11AAAAA1111AAZAA1111AAZA"]).buyer = "" := by
  refine ⟨by decide, by decide, by decide⟩

/-- Every match produced by the `findall` scan is 15 characters long. -/
theorem findallGstinAux_length15 :
    ∀ (fuel : Nat) (l m : List Char), m ∈ findallGstinAux fuel l → m.length = 15 := by
  intro fuel
  induction fuel with
  | zero =>
    intro l m hm
    cases l with
    | nil => simp [findallGstinAux] at hm
    | cons c cs => simp [findallGstinAux] at hm
  | succ n ih =>
    intro l m hm
    cases l with
    | nil => simp [findallGstinAux] at hm
    | cons c cs =>
      rw [findallGstinAux] at hm
      by_cases hchunk : isGstinChunk ((c :: cs).take 15)
      · rw [if_pos hchunk] at hm
        rcases List.mem_cons.1 hm with rfl | hm'
        · unfold isGstinChunk at hchunk
          simp only [Bool.and_eq_true, decide_eq_true_eq] at hchunk
          exact hchunk.1
        · exact ih _ m hm'
      · rw [if_neg hchunk] at hm
        exact ih cs m hm

/-- C4 (amended): the extractor never keeps more than two matches; and
whenever the non-overlapping left-to-right scan of the cleaned joined text
finds exactly two matches, the first is assigned as Seller and the second as
Buyer, both of length 15.  (For two *overlapping* pattern substrings the
scan keeps only the first, which is what the counterexample exhibits.) -/
theorem gstin_pair_assignment :
    (∀ text : String, (find_gstins_in_text text).length ≤ 2) ∧
    (∀ (lines : List String) (g1 g2 : List Char),
      findallGstin (cleanAlnumUpper (String.intercalate "\n" lines).data) = [g1, g2] →
      (extract_gstins_from_lines lines).seller = String.mk g1 ∧
      (extract_gstins_from_lines lines).buyer = String.mk g2 ∧
      g1.length = 15 ∧ g2.length = 15) := by
  constructor
  · intro text
    unfold find_gstins_in_text
    rw [List.length_map, List.length_take]
    omega
  · intro lines g1 g2 h
    have hfind : find_gstins_in_text (String.intercalate "\n" lines) =
        [String.mk g1, String.mk g2] := by
      unfold find_gstins_in_text
      rw [h]
      rfl
    have h1 : g1.length = 15 :=
      findallGstinAux_length15 _ _ g1 (h ▸ List.mem_cons_self g1 [g2])
    have h2 : g2.length = 15 :=
      findallGstinAux_length15 _ _ g2 (h ▸ List.mem_cons_of_mem g1 (List.mem_cons_self g2 []))
    unfold extract_gstins_from_lines
    rw [hfind]
    exact ⟨rfl, rfl, h1, h2⟩

/-- Closed instance of `gstin_pair_assignment` on a text with two disjoint
GSTIN-pattern substrings. -/
theorem gstin_pair_assignment_witness :
    (extract_gstins_from_lines ["27AAAAA0000A1Z5 07BBBBB1111B2Z6"]).seller =
      "27AAAAA0000A1Z5" ∧
    (extract_gstins_from_lines ["27AAAAA0000A1Z5 07BBBBB1111B2Z6"]).buyer =
      "07BBBBB1111B2Z6" ∧
    ("27AAAAA0000A1Z5".data).length = 15 ∧
    ("07BBBBB1111B2Z6".data).length = 15 :=
  gstin_pair_assignment.2 ["27AAAAA0000A1Z5 07BBBBB1111B2Z6"]
    "27AAAAA0000A1Z5".data "07BBBBB1111B2Z6".data (by decide)

/-! ### C8: idempotence of the line normalizer — prefix and occurrence
machinery -/

/-- A prefix test succeeds exactly when the pattern splits off the front. -/
theorem startsWithSeq_iff_append (pat : List Char) :
    ∀ l, startsWithSeq pat l = true ↔ ∃ t, l = pat ++ t := by
  induction pat with
  | nil => intro l; simp [startsWithSeq]
  | cons p ps ih =>
    intro l
    cases l with
    | nil => simp [startsWithSeq]
    | cons c cs =>
      rw [startsWithSeq]
      simp only [Bool.and_eq_true, decide_eq_true_eq, ih cs, List.cons_append]
      constructor
      · rintro ⟨rfl, t, rfl⟩
        exact ⟨t, rfl⟩
      · rintro ⟨t, h⟩
        obtain ⟨h1, h2⟩ := List.cons.inj h
        exact ⟨h1.symm, t, h2⟩

/-- Substring absence decomposes over a cons. -/
theorem containsSeq_cons_false (pat : List Char) (c : Char) (cs : List Char) :
    containsSeq pat (c :: cs) = false ↔
      startsWithSeq pat (c :: cs) = false ∧ containsSeq pat cs = false := by
  rw [containsSeq]
  simp

/-- Substring absence in a concatenation gives absence in the right part. -/
theorem containsSeq_append_false (pat x : List Char) :
    ∀ y, containsSeq pat (x ++ y) = false → containsSeq pat y = false := by
  induction x with
  | nil => intro y h; exact h
  | cons c cs ih =>
    intro y h
    rw [List.cons_append, containsSeq] at h
    simp only [Bool.or_eq_false_iff] at h
    exact ih y h.2

/-- `replaceTabs` on a non-tab head. -/
theorem replaceTabs_cons_ne (c : Char) (cs : List Char) (hne : ¬ c = '\t') :
    replaceTabs (c :: cs) = c :: replaceTabs cs := by
  conv_lhs => rw [replaceTabs.eq_def]
  split
  · rename_i heq
    exact absurd heq (List.cons_ne_nil c cs)
  · rename_i cs' heq
    exact absurd (List.cons.inj heq).1 hne
  · rename_i c' cs' hne' heq
    obtain ⟨h1, h2⟩ := List.cons.inj heq
    subst h1; subst h2
    rfl

/-- `replaceC6ST` on a head that does not start its pattern. -/
theorem replaceC6ST_cons_ne (c : Char) (cs : List Char)
    (hne : ∀ u, c = 'C' → cs = '6' :: 'S' :: 'T' :: u → False) :
    replaceC6ST (c :: cs) = c :: replaceC6ST cs := by
  conv_lhs => rw [replaceC6ST.eq_def]
  split
  · rename_i u heq
    exfalso
    obtain ⟨h1, h2⟩ := List.cons.inj heq
    exact hne u h1 h2
  · rename_i c' cs' hne' heq
    obtain ⟨h1, h2⟩ := List.cons.inj heq
    subst h1; subst h2
    rfl
  · rename_i heq
    exact absurd heq (List.cons_ne_nil c cs)

/-- `replaceS6ST` on a head that does not start its pattern. -/
theorem replaceS6ST_cons_ne (c : Char) (cs : List Char)
    (hne : ∀ u, c = 'S' → cs = '6' :: 'S' :: 'T' :: u → False) :
    replaceS6ST (c :: cs) = c :: replaceS6ST cs := by
  conv_lhs => rw [replaceS6ST.eq_def]
  split
  · rename_i u heq
    exfalso
    obtain ⟨h1, h2⟩ := List.cons.inj heq
    exact hne u h1 h2
  · rename_i c' cs' hne' heq
    obtain ⟨h1, h2⟩ := List.cons.inj heq
    subst h1; subst h2
    rfl
  · rename_i heq
    exact absurd heq (List.cons_ne_nil c cs)

/-- `replace1GST` on a head that does not start its pattern. -/
theorem replace1GST_cons_ne (c : Char) (cs : List Char)
    (hne : ∀ u, c = '1' → cs = 'G' :: 'S' :: 'T' :: u → False) :
    replace1GST (c :: cs) = c :: replace1GST cs := by
  conv_lhs => rw [replace1GST.eq_def]
  split
  · rename_i u heq
    exfalso
    obtain ⟨h1, h2⟩ := List.cons.inj heq
    exact hne u h1 h2
  · rename_i c' cs' hne' heq
    obtain ⟨h1, h2⟩ := List.cons.inj heq
    subst h1; subst h2
    rfl
  · rename_i heq
    exact absurd heq (List.cons_ne_nil c cs)

/-- When the output of `replaceC6ST` starts with a character other than the
replacement's head `'C'`, the input started with that same character. -/
theorem replaceC6ST_head (d : Char) (hd : ¬ d = 'C') :
    ∀ l t, replaceC6ST l = d :: t → ∃ u, l = d :: u ∧ t = replaceC6ST u := by
  intro l t h
  cases l with
  | nil => simp [replaceC6ST] at h
  | cons c cs =>
    by_cases hstart : ∃ u, c = 'C' ∧ cs = '6' :: 'S' :: 'T' :: u
    · obtain ⟨u, rfl, rfl⟩ := hstart
      obtain ⟨h1, -⟩ :=
        List.cons.inj (show 'C' :: 'G' :: 'S' :: 'T' :: replaceC6ST u = d :: t from h)
      exact absurd h1.symm hd
    · have hne : ∀ u, c = 'C' → cs = '6' :: 'S' :: 'T' :: u → False := by
        intro u h1 h2
        exact hstart ⟨u, h1, h2⟩
      rw [replaceC6ST_cons_ne c cs hne] at h
      obtain ⟨h1, h2⟩ := List.cons.inj h
      exact ⟨cs, by rw [h1], h2.symm⟩

/-- Analogue of `replaceC6ST_head` for `replaceS6ST` (replacement head `'S'`). -/
theorem replaceS6ST_head (d : Char) (hd : ¬ d = 'S') :
    ∀ l t, replaceS6ST l = d :: t → ∃ u, l = d :: u ∧ t = replaceS6ST u := by
  intro l t h
  cases l with
  | nil => simp [replaceS6ST] at h
  | cons c cs =>
    by_cases hstart : ∃ u, c = 'S' ∧ cs = '6' :: 'S' :: 'T' :: u
    · obtain ⟨u, rfl, rfl⟩ := hstart
      obtain ⟨h1, -⟩ :=
        List.cons.inj (show 'S' :: 'G' :: 'S' :: 'T' :: replaceS6ST u = d :: t from h)
      exact absurd h1.symm hd
    · have hne : ∀ u, c = 'S' → cs = '6' :: 'S' :: 'T' :: u → False := by
        intro u h1 h2
        exact hstart ⟨u, h1, h2⟩
      rw [replaceS6ST_cons_ne c cs hne] at h
      obtain ⟨h1, h2⟩ := List.cons.inj h
      exact ⟨cs, by rw [h1], h2.symm⟩

/-- Analogue of `replaceC6ST_head` for `replace1GST` (replacement head `'I'`). -/
theorem replace1GST_head (d : Char) (hd : ¬ d = 'I') :
    ∀ l t, replace1GST l = d :: t → ∃ u, l = d :: u ∧ t = replace1GST u := by
  intro l t h
  cases l with
  | nil => simp [replace1GST] at h
  | cons c cs =>
    by_cases hstart : ∃ u, c = '1' ∧ cs = 'G' :: 'S' :: 'T' :: u
    · obtain ⟨u, rfl, rfl⟩ := hstart
      obtain ⟨h1, -⟩ :=
        List.cons.inj (show 'I' :: 'G' :: 'S' :: 'T' :: replace1GST u = d :: t from h)
      exact absurd h1.symm hd
    · have hne : ∀ u, c = '1' → cs = 'G' :: 'S' :: 'T' :: u → False := by
        intro u h1 h2
        exact hstart ⟨u, h1, h2⟩
      rw [replace1GST_cons_ne c cs hne] at h
      obtain ⟨h1, h2⟩ := List.cons.inj h
      exact ⟨cs, by rw [h1], h2.symm⟩

/-- A prefix of `replaceC6ST` output free of the replacement head pulls back
to the input. -/
theorem replaceC6ST_pull (w : List Char) (hw : 'C' ∉ w) :
    ∀ l t, replaceC6ST l = w ++ t → ∃ u, l = w ++ u ∧ t = replaceC6ST u := by
  induction w with
  | nil => intro l t h; exact ⟨l, rfl, h.symm⟩
  | cons d ws ih =>
    intro l t h
    rw [List.cons_append] at h
    obtain ⟨u1, rfl, ht⟩ :=
      replaceC6ST_head d (fun hdc => hw (by rw [hdc]; exact List.mem_cons_self _ _)) l _ h
    obtain ⟨u2, rfl, ht2⟩ := ih (fun hmem => hw (List.mem_cons_of_mem d hmem)) u1 t ht.symm
    exact ⟨u2, rfl, ht2⟩

/-- A prefix of `replaceS6ST` output free of `'S'` pulls back to the input. -/
theorem replaceS6ST_pull (w : List Char) (hw : 'S' ∉ w) :
    ∀ l t, replaceS6ST l = w ++ t → ∃ u, l = w ++ u ∧ t = replaceS6ST u := by
  induction w with
  | nil => intro l t h; exact ⟨l, rfl, h.symm⟩
  | cons d ws ih =>
    intro l t h
    rw [List.cons_append] at h
    obtain ⟨u1, rfl, ht⟩ :=
      replaceS6ST_head d (fun hdc => hw (by rw [hdc]; exact List.mem_cons_self _ _)) l _ h
    obtain ⟨u2, rfl, ht2⟩ := ih (fun hmem => hw (List.mem_cons_of_mem d hmem)) u1 t ht.symm
    exact ⟨u2, rfl, ht2⟩

/-- A prefix of `replace1GST` output free of `'I'` pulls back to the input. -/
theorem replace1GST_pull (w : List Char) (hw : 'I' ∉ w) :
    ∀ l t, replace1GST l = w ++ t → ∃ u, l = w ++ u ∧ t = replace1GST u := by
  induction w with
  | nil => intro l t h; exact ⟨l, rfl, h.symm⟩
  | cons d ws ih =>
    intro l t h
    rw [List.cons_append] at h
    obtain ⟨u1, rfl, ht⟩ :=
      replace1GST_head d (fun hdc => hw (by rw [hdc]; exact List.mem_cons_self _ _)) l _ h
    obtain ⟨u2, rfl, ht2⟩ := ih (fun hmem => hw (List.mem_cons_of_mem d hmem)) u1 t ht.symm
    exact ⟨u2, rfl, ht2⟩

/-- `replaceTabs` leaves no tab character. -/
theorem replaceTabs_no_tab : ∀ l, '\t' ∉ replaceTabs l := by
  intro l
  induction l using replaceTabs.induct with
  | case1 => simp [replaceTabs]
  | case2 cs ih =>
    show '\t' ∉ ' ' :: replaceTabs cs
    intro hmem
    rcases List.mem_cons.1 hmem with h | h
    · exact absurd h (by decide)
    · exact ih h
  | case3 c cs hne ih =>
    rw [replaceTabs_cons_ne c cs hne]
    intro hmem
    rcases List.mem_cons.1 hmem with h | h
    · exact hne h.symm
    · exact ih h

/-- After `replaceC6ST` no occurrence of `"C6ST"` remains. -/
theorem replaceC6ST_kill : ∀ l, containsSeq ['C','6','S','T'] (replaceC6ST l) = false := by
  intro l
  induction l using replaceC6ST.induct with
  | case3 => decide
  | case1 cs ih =>
    show containsSeq _ ('C' :: 'G' :: 'S' :: 'T' :: replaceC6ST cs) = false
    rw [containsSeq, containsSeq, containsSeq, containsSeq, ih]
    simp +decide [startsWithSeq]
  | case2 c cs hne ih =>
    rw [replaceC6ST_cons_ne c cs hne, containsSeq, ih, Bool.or_false, Bool.eq_false_iff]
    intro hsw
    rw [startsWithSeq_iff_append] at hsw
    obtain ⟨t, hsplit⟩ := hsw
    obtain ⟨h1, h2⟩ := List.cons.inj hsplit
    obtain ⟨u, hcs, -⟩ := replaceC6ST_pull ['6','S','T'] (by decide) cs t (by simpa using h2)
    exact hne u h1 (by simpa using hcs)

/-- After `replaceS6ST` no occurrence of `"S6ST"` remains. -/
theorem replaceS6ST_kill : ∀ l, containsSeq ['S','6','S','T'] (replaceS6ST l) = false := by
  intro l
  induction l using replaceS6ST.induct with
  | case3 => decide
  | case1 cs ih =>
    show containsSeq _ ('S' :: 'G' :: 'S' :: 'T' :: replaceS6ST cs) = false
    rw [containsSeq, containsSeq, containsSeq, containsSeq, ih]
    simp +decide [startsWithSeq]
  | case2 c cs hne ih =>
    rw [replaceS6ST_cons_ne c cs hne, containsSeq, ih, Bool.or_false, Bool.eq_false_iff]
    intro hsw
    rw [startsWithSeq_iff_append] at hsw
    obtain ⟨t, hsplit⟩ := hsw
    obtain ⟨h1, h2⟩ := List.cons.inj hsplit
    obtain ⟨cs₁, hcs, ht⟩ :=
      replaceS6ST_head '6' (by decide) cs ('S' :: 'T' :: t) (by simpa using h2)
    by_cases hstart : ∃ u, cs₁ = 'S' :: '6' :: 'S' :: 'T' :: u
    · obtain ⟨u, rfl⟩ := hstart
      have : ('S' :: 'T' :: t : List Char) =
          'S' :: 'G' :: 'S' :: 'T' :: replaceS6ST u := ht
      obtain ⟨-, hTG⟩ := List.cons.inj this
      exact absurd (List.cons.inj hTG).1 (by decide)
    · cases cs₁ with
      | nil => simp [replaceS6ST] at ht
      | cons d ds =>
        have hne₁ : ∀ u, d = 'S' → ds = '6' :: 'S' :: 'T' :: u → False := by
          intro u hd hds
          exact hstart ⟨u, by rw [hd, hds]⟩
        rw [replaceS6ST_cons_ne d ds hne₁] at ht
        obtain ⟨hSd, hTt⟩ := List.cons.inj ht
        obtain ⟨u, hds, -⟩ := replaceS6ST_head 'T' (by decide) ds t hTt.symm
        refine hne u h1 ?_
        rw [hcs, ← hSd, hds]

/-- After `replace1GST` no occurrence of `"1GST"` remains. -/
theorem replace1GST_kill : ∀ l, containsSeq ['1','G','S','T'] (replace1GST l) = false := by
  intro l
  induction l using replace1GST.induct with
  | case3 => decide
  | case1 cs ih =>
    show containsSeq _ ('I' :: 'G' :: 'S' :: 'T' :: replace1GST cs) = false
    rw [containsSeq, containsSeq, containsSeq, containsSeq, ih]
    simp +decide [startsWithSeq]
  | case2 c cs hne ih =>
    rw [replace1GST_cons_ne c cs hne, containsSeq, ih, Bool.or_false, Bool.eq_false_iff]
    intro hsw
    rw [startsWithSeq_iff_append] at hsw
    obtain ⟨t, hsplit⟩ := hsw
    obtain ⟨h1, h2⟩ := List.cons.inj hsplit
    obtain ⟨u, hcs, -⟩ := replace1GST_pull ['G','S','T'] (by decide) cs t (by simpa using h2)
    exact hne u h1 (by simpa using hcs)

/-- Characters of `replaceC6ST` output come from the input or its
replacement string. -/
theorem mem_replaceC6ST (a : Char) :
    ∀ l, a ∈ replaceC6ST l → a ∈ l ∨ a ∈ (['C','G','S','T'] : List Char) := by
  intro l
  induction l using replaceC6ST.induct with
  | case3 =>
    intro h
    rw [show replaceC6ST [] = ([] : List Char) from rfl] at h
    exact absurd h (List.not_mem_nil a)
  | case1 cs ih =>
    intro h
    rw [show replaceC6ST ('C' :: '6' :: 'S' :: 'T' :: cs) = 'C' :: 'G' :: 'S' :: 'T' :: replaceC6ST cs from rfl] at h
    simp only [List.mem_cons] at h
    rcases h with rfl | rfl | rfl | rfl | h
    · exact Or.inr (by decide)
    · exact Or.inr (by decide)
    · exact Or.inr (by decide)
    · exact Or.inr (by decide)
    · rcases ih h with h' | h'
      · exact Or.inl (by simp [List.mem_cons, h'])
      · exact Or.inr h'
  | case2 c cs hne ih =>
    rw [replaceC6ST_cons_ne c cs hne]
    intro h
    rcases List.mem_cons.1 h with rfl | h
    · exact Or.inl (List.mem_cons_self _ _)
    · rcases ih h with h' | h'
      · exact Or.inl (List.mem_cons_of_mem _ h')
      · exact Or.inr h'

/-- Characters of `replaceS6ST` output come from the input or its
replacement string. -/
theorem mem_replaceS6ST (a : Char) :
    ∀ l, a ∈ replaceS6ST l → a ∈ l ∨ a ∈ (['S','G','S','T'] : List Char) := by
  intro l
  induction l using replaceS6ST.induct with
  | case3 =>
    intro h
    rw [show replaceS6ST [] = ([] : List Char) from rfl] at h
    exact absurd h (List.not_mem_nil a)
  | case1 cs ih =>
    intro h
    rw [show replaceS6ST ('S' :: '6' :: 'S' :: 'T' :: cs) = 'S' :: 'G' :: 'S' :: 'T' :: replaceS6ST cs from rfl] at h
    simp only [List.mem_cons] at h
    rcases h with rfl | rfl | rfl | rfl | h
    · exact Or.inr (by decide)
    · exact Or.inr (by decide)
    · exact Or.inr (by decide)
    · exact Or.inr (by decide)
    · rcases ih h with h' | h'
      · exact Or.inl (by simp [List.mem_cons, h'])
      · exact Or.inr h'
  | case2 c cs hne ih =>
    rw [replaceS6ST_cons_ne c cs hne]
    intro h
    rcases List.mem_cons.1 h with rfl | h
    · exact Or.inl (List.mem_cons_self _ _)
    · rcases ih h with h' | h'
      · exact Or.inl (List.mem_cons_of_mem _ h')
      · exact Or.inr h'

/-- Characters of `replace1GST` output come from the input or its
replacement string. -/
theorem mem_replace1GST (a : Char) :
    ∀ l, a ∈ replace1GST l → a ∈ l ∨ a ∈ (['I','G','S','T'] : List Char) := by
  intro l
  induction l using replace1GST.induct with
  | case3 =>
    intro h
    rw [show replace1GST [] = ([] : List Char) from rfl] at h
    exact absurd h (List.not_mem_nil a)
  | case1 cs ih =>
    intro h
    rw [show replace1GST ('1' :: 'G' :: 'S' :: 'T' :: cs) = 'I' :: 'G' :: 'S' :: 'T' :: replace1GST cs from rfl] at h
    simp only [List.mem_cons] at h
    rcases h with rfl | rfl | rfl | rfl | h
    · exact Or.inr (by decide)
    · exact Or.inr (by decide)
    · exact Or.inr (by decide)
    · exact Or.inr (by decide)
    · rcases ih h with h' | h'
      · exact Or.inl (by simp [List.mem_cons, h'])
      · exact Or.inr h'
  | case2 c cs hne ih =>
    rw [replace1GST_cons_ne c cs hne]
    intro h
    rcases List.mem_cons.1 h with rfl | h
    · exact Or.inl (List.mem_cons_self _ _)
    · rcases ih h with h' | h'
      · exact Or.inl (List.mem_cons_of_mem _ h')
      · exact Or.inr h'

/-- `replaceS6ST` cannot create an occurrence of `"C6ST"`. -/
theorem replaceS6ST_pres_C6ST :
    ∀ l, containsSeq ['C','6','S','T'] l = false →
      containsSeq ['C','6','S','T'] (replaceS6ST l) = false := by
  intro l
  induction l using replaceS6ST.induct with
  | case3 => intro _; decide
  | case1 cs ih =>
    intro h
    have hcs : containsSeq ['C','6','S','T'] cs = false :=
      containsSeq_append_false _ ['S','6','S','T'] cs h
    show containsSeq _ ('S' :: 'G' :: 'S' :: 'T' :: replaceS6ST cs) = false
    rw [containsSeq, containsSeq, containsSeq, containsSeq, ih hcs]
    simp +decide [startsWithSeq]
  | case2 c cs hne ih =>
    intro h
    obtain ⟨hsw0, hcs⟩ := (containsSeq_cons_false _ c cs).1 h
    rw [replaceS6ST_cons_ne c cs hne, containsSeq, ih hcs, Bool.or_false, Bool.eq_false_iff]
    intro hsw
    rw [startsWithSeq_iff_append] at hsw
    obtain ⟨t, hsplit⟩ := hsw
    obtain ⟨h1, h2⟩ := List.cons.inj hsplit
    obtain ⟨cs₁, hcs1, ht⟩ :=
      replaceS6ST_head '6' (by decide) cs ('S' :: 'T' :: t) (by simpa using h2)
    by_cases hstart : ∃ u, cs₁ = 'S' :: '6' :: 'S' :: 'T' :: u
    · obtain ⟨u, rfl⟩ := hstart
      have heq : ('S' :: 'T' :: t : List Char) =
        'S' :: 'G' :: 'S' :: 'T' :: replaceS6ST u := ht
      exact absurd (List.cons.inj (List.cons.inj heq).2).1 (by decide)
    · cases cs₁ with
      | nil => simp [replaceS6ST] at ht
      | cons d ds =>
        have hne₁ : ∀ u, d = 'S' → ds = '6' :: 'S' :: 'T' :: u → False := by
          intro u hd hds
          exact hstart ⟨u, by rw [hd, hds]⟩
        rw [replaceS6ST_cons_ne d ds hne₁] at ht
        obtain ⟨hSd, hTt⟩ := List.cons.inj ht
        obtain ⟨u, hds, -⟩ := replaceS6ST_head 'T' (by decide) ds t hTt.symm
        rw [Bool.eq_false_iff] at hsw0
        apply hsw0
        rw [startsWithSeq_iff_append]
        exact ⟨u, by rw [h1, hcs1, ← hSd, hds]; rfl⟩

/-- `replace1GST` cannot create an occurrence of `"C6ST"`. -/
theorem replace1GST_pres_C6ST :
    ∀ l, containsSeq ['C','6','S','T'] l = false →
      containsSeq ['C','6','S','T'] (replace1GST l) = false := by
  intro l
  induction l using replace1GST.induct with
  | case3 => intro _; decide
  | case1 cs ih =>
    intro h
    have hcs : containsSeq ['C','6','S','T'] cs = false :=
      containsSeq_append_false _ ['1','G','S','T'] cs h
    show containsSeq _ ('I' :: 'G' :: 'S' :: 'T' :: replace1GST cs) = false
    rw [containsSeq, containsSeq, containsSeq, containsSeq, ih hcs]
    simp +decide [startsWithSeq]
  | case2 c cs hne ih =>
    intro h
    obtain ⟨hsw0, hcs⟩ := (containsSeq_cons_false _ c cs).1 h
    rw [replace1GST_cons_ne c cs hne, containsSeq, ih hcs, Bool.or_false, Bool.eq_false_iff]
    intro hsw
    rw [startsWithSeq_iff_append] at hsw
    obtain ⟨t, hsplit⟩ := hsw
    obtain ⟨h1, h2⟩ := List.cons.inj hsplit
    obtain ⟨u, hcsu, -⟩ := replace1GST_pull ['6','S','T'] (by decide) cs t (by simpa using h2)
    rw [Bool.eq_false_iff] at hsw0
    apply hsw0
    rw [startsWithSeq_iff_append]
    exact ⟨u, by rw [h1, hcsu]; rfl⟩

/-- `replace1GST` cannot create an occurrence of `"S6ST"`. -/
theorem replace1GST_pres_S6ST :
    ∀ l, containsSeq ['S','6','S','T'] l = false →
      containsSeq ['S','6','S','T'] (replace1GST l) = false := by
  intro l
  induction l using replace1GST.induct with
  | case3 => intro _; decide
  | case1 cs ih =>
    intro h
    have hcs : containsSeq ['S','6','S','T'] cs = false :=
      containsSeq_append_false _ ['1','G','S','T'] cs h
    show containsSeq _ ('I' :: 'G' :: 'S' :: 'T' :: replace1GST cs) = false
    rw [containsSeq, containsSeq, containsSeq, containsSeq, ih hcs]
    simp +decide [startsWithSeq]
  | case2 c cs hne ih =>
    intro h
    obtain ⟨hsw0, hcs⟩ := (containsSeq_cons_false _ c cs).1 h
    rw [replace1GST_cons_ne c cs hne, containsSeq, ih hcs, Bool.or_false, Bool.eq_false_iff]
    intro hsw
    rw [startsWithSeq_iff_append] at hsw
    obtain ⟨t, hsplit⟩ := hsw
    obtain ⟨h1, h2⟩ := List.cons.inj hsplit
    obtain ⟨u, hcsu, -⟩ := replace1GST_pull ['6','S','T'] (by decide) cs t (by simpa using h2)
    rw [Bool.eq_false_iff] at hsw0
    apply hsw0
    rw [startsWithSeq_iff_append]
    exact ⟨u, by rw [h1, hcsu]; rfl⟩

/-- Branch equation of `collapseWs` for an empty tail. -/
theorem collapseWs_single (c : Char) : collapseWs [c] = [c] := by
  by_cases hc : pyWs c <;> simp [collapseWs, hc]

/-- Branch equation of `collapseWs` for a non-whitespace head. -/
theorem collapseWs_cons_nonws (c : Char) (cs : List Char) (hc : pyWs c = false) :
    collapseWs (c :: cs) = c :: collapseWs cs := by
  cases cs <;> simp [collapseWs, hc]

/-- Branch equation of `collapseWs` at the start of a whitespace run. -/
theorem collapseWs_cons_ws_ws (c d : Char) (ds : List Char)
    (hc : pyWs c = true) (hd : pyWs d = true) :
    collapseWs (c :: d :: ds) = ' ' :: skipWsCollapse (d :: ds) := by
  simp [collapseWs, hc, hd]

/-- Branch equation of `collapseWs` for an isolated whitespace character. -/
theorem collapseWs_cons_ws_nonws (c d : Char) (ds : List Char)
    (hc : pyWs c = true) (hd : pyWs d = false) :
    collapseWs (c :: d :: ds) = c :: collapseWs (d :: ds) := by
  simp [collapseWs, hc, hd]

/-- Branch equation of `skipWsCollapse` on whitespace. -/
theorem skipWsCollapse_cons_ws (c : Char) (cs : List Char) (hc : pyWs c = true) :
    skipWsCollapse (c :: cs) = skipWsCollapse cs := by
  simp [skipWsCollapse, hc]

/-- Branch equation of `skipWsCollapse` on non-whitespace. -/
theorem skipWsCollapse_cons_nonws (c : Char) (cs : List Char) (hc : pyWs c = false) :
    skipWsCollapse (c :: cs) = c :: collapseWs cs := by
  simp [skipWsCollapse, hc]

/-- Characters of the collapsed line come from the input or are the space
substituted for a run. -/
theorem collapse_mem : ∀ (n : Nat) (l : List Char), l.length ≤ n →
    (∀ a, a ∈ collapseWs l → a ∈ l ∨ a = ' ') ∧
    (∀ a, a ∈ skipWsCollapse l → a ∈ l ∨ a = ' ') := by
  intro n
  induction n with
  | zero =>
    intro l hl
    have : l = [] := List.length_eq_zero.1 (Nat.le_zero.1 hl)
    subst this
    exact ⟨fun a h => absurd h (List.not_mem_nil a),
           fun a h => absurd h (List.not_mem_nil a)⟩
  | succ n ih =>
    intro l hl
    cases l with
    | nil =>
      exact ⟨fun a h => absurd h (List.not_mem_nil a),
             fun a h => absurd h (List.not_mem_nil a)⟩
    | cons c cs =>
      have hcs : cs.length ≤ n := Nat.le_of_succ_le_succ (by simpa using hl)
      constructor
      · intro a h
        by_cases hc : pyWs c
        · cases cs with
          | nil =>
            rw [collapseWs_single] at h
            rcases List.mem_cons.1 h with rfl | h
            · exact Or.inl (List.mem_cons_self _ _)
            · exact absurd h (List.not_mem_nil a)
          | cons d ds =>
            by_cases hd : pyWs d
            · rw [collapseWs_cons_ws_ws c d ds hc hd] at h
              rcases List.mem_cons.1 h with rfl | h
              · exact Or.inr rfl
              · rcases ((ih (d :: ds) hcs).2 a h) with h' | h'
                · exact Or.inl (List.mem_cons_of_mem c h')
                · exact Or.inr h'
            · rw [collapseWs_cons_ws_nonws c d ds hc (by simpa using hd)] at h
              rcases List.mem_cons.1 h with rfl | h
              · exact Or.inl (List.mem_cons_self _ _)
              · rcases ((ih (d :: ds) hcs).1 a h) with h' | h'
                · exact Or.inl (List.mem_cons_of_mem c h')
                · exact Or.inr h'
        · rw [collapseWs_cons_nonws c cs (by simpa using hc)] at h
          rcases List.mem_cons.1 h with rfl | h
          · exact Or.inl (List.mem_cons_self _ _)
          · rcases ((ih cs hcs).1 a h) with h' | h'
            · exact Or.inl (List.mem_cons_of_mem c h')
            · exact Or.inr h'
      · intro a h
        by_cases hc : pyWs c
        · rw [skipWsCollapse_cons_ws c cs hc] at h
          rcases ((ih cs hcs).2 a h) with h' | h'
          · exact Or.inl (List.mem_cons_of_mem c h')
          · exact Or.inr h'
        · rw [skipWsCollapse_cons_nonws c cs (by simpa using hc)] at h
          rcases List.mem_cons.1 h with rfl | h
          · exact Or.inl (List.mem_cons_self _ _)
          · rcases ((ih cs hcs).1 a h) with h' | h'
            · exact Or.inl (List.mem_cons_of_mem c h')
            · exact Or.inr h'

/-- Whitespace-free lines start with a non-whitespace character (vacuous for
the empty line). -/
def headNotWs (l : List Char) : Prop := ∀ c, l.head? = some c → pyWs c = false

/-- The last character, when present, is not whitespace. -/
def lastNotWs (l : List Char) : Prop := ∀ c, l.getLast? = some c → pyWs c = false

/-- No two adjacent whitespace characters. -/
def adjFree : List Char → Prop
  | [] => True
  | [_] => True
  | a :: b :: t => (pyWs a = false ∨ pyWs b = false) ∧ adjFree (b :: t)

/-- Extend an adjacency-free line with a non-whitespace head. -/
theorem adjFree_cons_nonws (c : Char) (X : List Char) (hc : pyWs c = false)
    (hX : adjFree X) : adjFree (c :: X) := by
  cases X with
  | nil => trivial
  | cons x xs => exact ⟨Or.inl hc, hX⟩

/-- Extend an adjacency-free line whose head is not whitespace. -/
theorem adjFree_cons_headNotWs (c : Char) (X : List Char) (hX : adjFree X)
    (hh : headNotWs X) : adjFree (c :: X) := by
  cases X with
  | nil => trivial
  | cons x xs => exact ⟨Or.inr (hh x rfl), hX⟩

/-- The tail of an adjacency-free line is adjacency-free. -/
theorem adjFree_tail (a : Char) (X : List Char) (h : adjFree (a :: X)) :
    adjFree X := by
  cases X with
  | nil => trivial
  | cons x xs => exact h.2

/-- Collapsing leaves no two adjacent whitespace characters. -/
theorem collapse_adjFree : ∀ (n : Nat) (l : List Char), l.length ≤ n →
    adjFree (collapseWs l) ∧ adjFree (skipWsCollapse l) ∧
    headNotWs (skipWsCollapse l) := by
  intro n
  induction n with
  | zero =>
    intro l hl
    have : l = [] := List.length_eq_zero.1 (Nat.le_zero.1 hl)
    subst this
    exact ⟨trivial, trivial, fun c h => by simp [skipWsCollapse] at h⟩
  | succ n ih =>
    intro l hl
    cases l with
    | nil => exact ⟨trivial, trivial, fun c h => by simp [skipWsCollapse] at h⟩
    | cons c cs =>
      have hcs : cs.length ≤ n := Nat.le_of_succ_le_succ (by simpa using hl)
      by_cases hc : pyWs c
      · refine ⟨?_, ?_, ?_⟩
        · cases cs with
          | nil => rw [collapseWs_single]; trivial
          | cons d ds =>
            by_cases hd : pyWs d
            · rw [collapseWs_cons_ws_ws c d ds hc hd]
              exact adjFree_cons_headNotWs ' ' _ ((ih _ hcs).2.1) ((ih _ hcs).2.2)
            · rw [collapseWs_cons_ws_nonws c d ds hc (by simpa using hd)]
              refine adjFree_cons_headNotWs c _ ((ih _ hcs).1) ?_
              rw [collapseWs_cons_nonws d ds (by simpa using hd)]
              intro x hx
              have hdx : d = x := Option.some.inj hx
              rw [← hdx]
              simpa using hd
        · rw [skipWsCollapse_cons_ws c cs hc]
          exact (ih cs hcs).2.1
        · rw [skipWsCollapse_cons_ws c cs hc]
          exact (ih cs hcs).2.2
      · have hc' : pyWs c = false := by simpa using hc
        refine ⟨?_, ?_, ?_⟩
        · rw [collapseWs_cons_nonws c cs hc']
          exact adjFree_cons_nonws c _ hc' ((ih cs hcs).1)
        · rw [skipWsCollapse_cons_nonws c cs hc']
          exact adjFree_cons_nonws c _ hc' ((ih cs hcs).1)
        · rw [skipWsCollapse_cons_nonws c cs hc']
          intro x hx
          have : c = x := Option.some.inj hx
          rw [← this]
          exact hc'

/-- A whitespace-free prefix of the collapsed line was already a prefix of
the input: collapsing never glues non-whitespace characters together. -/
theorem sw_collapse_pull (w : List Char) (hw : ∀ c ∈ w, pyWs c = false) :
    ∀ l, startsWithSeq w (collapseWs l) = true → startsWithSeq w l = true := by
  induction w with
  | nil => intro l _; rfl
  | cons p ps ih =>
    intro l hsw
    cases hcol : collapseWs l with
    | nil => rw [hcol] at hsw; simp [startsWithSeq] at hsw
    | cons x xs =>
      rw [hcol, startsWithSeq] at hsw
      simp only [Bool.and_eq_true, decide_eq_true_eq] at hsw
      obtain ⟨hpx, hsw2⟩ := hsw
      have hpws : pyWs p = false := hw p (List.mem_cons_self _ _)
      cases l with
      | nil => simp [collapseWs] at hcol
      | cons c cs =>
        by_cases hc : pyWs c
        · exfalso
          cases cs with
          | nil =>
            rw [collapseWs_single] at hcol
            obtain ⟨h1, -⟩ := List.cons.inj hcol
            have hcp : c = p := h1.trans hpx.symm
            rw [hcp, hpws] at hc
            exact Bool.false_ne_true hc
          | cons d ds =>
            by_cases hd : pyWs d
            · rw [collapseWs_cons_ws_ws c d ds hc hd] at hcol
              obtain ⟨h1, -⟩ := List.cons.inj hcol
              have hps : p = ' ' := hpx.trans h1.symm
              rw [hps] at hpws
              simp [pyWs] at hpws
            · rw [collapseWs_cons_ws_nonws c d ds hc (by simpa using hd)] at hcol
              obtain ⟨h1, -⟩ := List.cons.inj hcol
              have hcp : c = p := h1.trans hpx.symm
              rw [hcp, hpws] at hc
              exact Bool.false_ne_true hc
        · rw [collapseWs_cons_nonws c cs (by simpa using hc)] at hcol
          obtain ⟨h1, h2⟩ := List.cons.inj hcol
          rw [startsWithSeq]
          simp only [Bool.and_eq_true, decide_eq_true_eq]
          refine ⟨hpx.trans h1.symm, ?_⟩
          exact ih (fun a ha => hw a (List.mem_cons_of_mem p ha)) cs (by rw [h2]; exact hsw2)

/-- Collapsing cannot create an occurrence of a non-empty whitespace-free
pattern. -/
theorem collapse_pres_contains (pat : List Char) (hpat : pat ≠ [])
    (hw : ∀ c ∈ pat, pyWs c = false) :
    ∀ (n : Nat) (l : List Char), l.length ≤ n →
      (containsSeq pat l = false → containsSeq pat (collapseWs l) = false) ∧
      (containsSeq pat l = false → containsSeq pat (skipWsCollapse l) = false) := by
  intro n
  induction n with
  | zero =>
    intro l hl
    have : l = [] := List.length_eq_zero.1 (Nat.le_zero.1 hl)
    subst this
    exact ⟨fun h => h, fun h => h⟩
  | succ n ih =>
    intro l hl
    cases l with
    | nil => exact ⟨fun h => h, fun h => h⟩
    | cons c cs =>
      have hcs : cs.length ≤ n := Nat.le_of_succ_le_succ (by simpa using hl)
      have hhead : ∀ (X : List Char) (x : Char), pyWs x = false → False ∨ True := by
        intro _ _ _; exact Or.inr trivial
      constructor
      · intro h
        obtain ⟨hsw0, hcont⟩ := (containsSeq_cons_false pat c cs).1 h
        by_cases hc : pyWs c
        · cases cs with
          | nil => rw [collapseWs_single]; exact h
          | cons d ds =>
            by_cases hd : pyWs d
            · rw [collapseWs_cons_ws_ws c d ds hc hd]
              rw [containsSeq_cons_false]
              refine ⟨?_, (ih (d :: ds) hcs).2 hcont⟩
              rw [Bool.eq_false_iff]
              intro hsw
              cases pat with
              | nil => exact hpat rfl
              | cons p ps =>
                rw [startsWithSeq] at hsw
                simp only [Bool.and_eq_true, decide_eq_true_eq] at hsw
                have : pyWs p = false := hw p (List.mem_cons_self _ _)
                rw [hsw.1] at this
                simp [pyWs] at this
            · rw [collapseWs_cons_ws_nonws c d ds hc (by simpa using hd)]
              rw [containsSeq_cons_false]
              refine ⟨?_, (ih (d :: ds) hcs).1 hcont⟩
              rw [Bool.eq_false_iff]
              intro hsw
              cases pat with
              | nil => exact hpat rfl
              | cons p ps =>
                rw [startsWithSeq] at hsw
                simp only [Bool.and_eq_true, decide_eq_true_eq] at hsw
                have hp : pyWs p = false := hw p (List.mem_cons_self _ _)
                rw [hsw.1] at hp
                rw [hp] at hc
                exact Bool.false_ne_true hc
        · rw [collapseWs_cons_nonws c cs (by simpa using hc)]
          rw [containsSeq_cons_false]
          refine ⟨?_, (ih cs hcs).1 hcont⟩
          rw [Bool.eq_false_iff]
          intro hsw
          cases pat with
          | nil => exact hpat rfl
          | cons p ps =>
            rw [startsWithSeq] at hsw
            simp only [Bool.and_eq_true, decide_eq_true_eq] at hsw
            obtain ⟨hpc, hsw2⟩ := hsw
            have hps : startsWithSeq ps cs = true :=
              sw_collapse_pull ps (fun a ha => hw a (List.mem_cons_of_mem p ha)) cs hsw2
            rw [Bool.eq_false_iff] at hsw0
            apply hsw0
            rw [startsWithSeq]
            simp only [Bool.and_eq_true, decide_eq_true_eq]
            exact ⟨hpc, hps⟩
      · intro h
        obtain ⟨hsw0, hcont⟩ := (containsSeq_cons_false pat c cs).1 h
        by_cases hc : pyWs c
        · rw [skipWsCollapse_cons_ws c cs hc]
          exact (ih cs hcs).2 hcont
        · rw [skipWsCollapse_cons_nonws c cs (by simpa using hc)]
          rw [containsSeq_cons_false]
          refine ⟨?_, (ih cs hcs).1 hcont⟩
          rw [Bool.eq_false_iff]
          intro hsw
          cases pat with
          | nil => exact hpat rfl
          | cons p ps =>
            rw [startsWithSeq] at hsw
            simp only [Bool.and_eq_true, decide_eq_true_eq] at hsw
            obtain ⟨hpc, hsw2⟩ := hsw
            have hps : startsWithSeq ps cs = true :=
              sw_collapse_pull ps (fun a ha => hw a (List.mem_cons_of_mem p ha)) cs hsw2
            rw [Bool.eq_false_iff] at hsw0
            apply hsw0
            rw [startsWithSeq]
            simp only [Bool.and_eq_true, decide_eq_true_eq]
            exact ⟨hpc, hps⟩

/-- Collapsing is the identity on adjacency-free lines. -/
theorem collapse_id_of_adjFree : ∀ (n : Nat) (l : List Char), l.length ≤ n →
    adjFree l → collapseWs l = l := by
  intro n
  induction n with
  | zero =>
    intro l hl _
    have : l = [] := List.length_eq_zero.1 (Nat.le_zero.1 hl)
    subst this
    rfl
  | succ n ih =>
    intro l hl hfree
    cases l with
    | nil => rfl
    | cons c cs =>
      have hcs : cs.length ≤ n := Nat.le_of_succ_le_succ (by simpa using hl)
      by_cases hc : pyWs c
      · cases cs with
        | nil => exact collapseWs_single c
        | cons d ds =>
          have hd : pyWs d = false := by
            rcases hfree.1 with h | h
            · rw [h] at hc; exact absurd hc (Bool.false_ne_true)
            · exact h
          rw [collapseWs_cons_ws_nonws c d ds hc hd]
          rw [ih (d :: ds) hcs hfree.2]
      · rw [collapseWs_cons_nonws c cs (by simpa using hc)]
        rw [ih cs hcs (adjFree_tail c cs hfree)]

/-- Peeling a head off a non-empty list keeps the last element. -/
theorem getLast?_cons_ne_nil {a : Char} {X : List Char} (h : X ≠ []) :
    (a :: X).getLast? = X.getLast? := by
  cases X with
  | nil => exact absurd rfl h
  | cons b bs => exact List.getLast?_cons_cons

/-- Left-trimming yields a whitespace-free head. -/
theorem trimLeftWs_headNotWs : ∀ l, headNotWs (trimLeftWs l) := by
  intro l
  induction l with
  | nil => intro c h; simp [trimLeftWs] at h
  | cons c cs ih =>
    by_cases hc : pyWs c
    · rw [trimLeftWs, List.dropWhile_cons_of_pos hc]
      exact ih
    · rw [trimLeftWs, List.dropWhile_cons_of_neg hc]
      intro x hx
      have : c = x := Option.some.inj hx
      rw [← this]
      simpa using hc

/-- The trimmed list is a suffix of the input. -/
theorem trimLeftWs_suffix : ∀ l : List Char, ∃ t, l = t ++ trimLeftWs l := by
  intro l
  induction l with
  | nil => exact ⟨[], rfl⟩
  | cons c cs ih =>
    by_cases hc : pyWs c
    · obtain ⟨t, ht⟩ := ih
      refine ⟨c :: t, ?_⟩
      rw [trimLeftWs, List.dropWhile_cons_of_pos hc, List.cons_append]
      rw [trimLeftWs] at ht
      rw [← ht]
    · exact ⟨[], by rw [trimLeftWs, List.dropWhile_cons_of_neg hc]; rfl⟩

/-- Stripping removes all leading whitespace. -/
theorem pyStrip_headNotWs (l : List Char) : headNotWs (pyStrip l) := by
  unfold pyStrip
  intro x hx
  rw [List.head?_reverse] at hx
  by_cases hB : trimLeftWs (trimLeftWs l).reverse = []
  · rw [hB] at hx
    simp at hx
  · obtain ⟨t, ht⟩ := trimLeftWs_suffix (trimLeftWs l).reverse
    rw [show (trimLeftWs (trimLeftWs l).reverse).getLast? =
          ((trimLeftWs l).reverse).getLast? from by
        conv_rhs => rw [ht]
        exact (List.getLast?_append_of_ne_nil t hB).symm] at hx
    rw [List.getLast?_reverse] at hx
    exact trimLeftWs_headNotWs l x hx

/-- Stripping removes all trailing whitespace. -/
theorem pyStrip_lastNotWs (l : List Char) : lastNotWs (pyStrip l) := by
  unfold pyStrip
  intro x hx
  rw [List.getLast?_reverse] at hx
  exact trimLeftWs_headNotWs (trimLeftWs l).reverse x hx

/-- `replaceTabs` is the character-wise tab-to-space map. -/
theorem replaceTabs_eq_map :
    ∀ l, replaceTabs l = l.map (fun c => if c = '\t' then ' ' else c) := by
  intro l
  induction l using replaceTabs.induct with
  | case1 => rfl
  | case2 cs ih =>
    show ' ' :: replaceTabs cs = _
    simp [ih]
  | case3 c cs hne ih =>
    rw [replaceTabs_cons_ne c cs hne, List.map_cons, if_neg hne, ih]

/-- `replaceTabs` keeps a whitespace-free head. -/
theorem replaceTabs_headNotWs (l : List Char) (h : headNotWs l) :
    headNotWs (replaceTabs l) := by
  cases l with
  | nil => intro c hc; simp [replaceTabs] at hc
  | cons c cs =>
    have hc : pyWs c = false := h c rfl
    have hct : ¬ c = '\t' := by
      intro hh
      rw [hh] at hc
      simp [pyWs] at hc
    rw [replaceTabs_cons_ne c cs hct]
    intro x hx
    have : c = x := Option.some.inj hx
    rw [← this]
    exact hc

/-- `replaceTabs` keeps a whitespace-free last character. -/
theorem replaceTabs_lastNotWs (l : List Char) (h : lastNotWs l) :
    lastNotWs (replaceTabs l) := by
  rw [replaceTabs_eq_map]
  intro x hx
  rw [List.getLast?_eq_head?_reverse, ← List.map_reverse, List.head?_map] at hx
  cases hrev : l.reverse.head? with
  | none => rw [hrev] at hx; simp at hx
  | some y =>
    rw [hrev] at hx
    simp only [Option.map_some', Option.some.injEq] at hx
    have hy : pyWs y = false := by
      apply h
      rw [List.getLast?_eq_head?_reverse, hrev]
    have hyt : ¬ y = '\t' := by
      intro hh
      rw [hh] at hy
      simp [pyWs] at hy
    rw [if_neg hyt] at hx
    rw [← hx]
    exact hy

/-- `replaceC6ST` maps non-empty input to non-empty output. -/
theorem replaceC6ST_ne_nil : ∀ l : List Char, l ≠ [] → replaceC6ST l ≠ [] := by
  intro l hl
  cases l with
  | nil => exact absurd rfl hl
  | cons c cs =>
    by_cases hstart : ∃ u, c = 'C' ∧ cs = '6' :: 'S' :: 'T' :: u
    · obtain ⟨u, rfl, rfl⟩ := hstart
      rw [show replaceC6ST ('C' :: '6' :: 'S' :: 'T' :: u) =
        'C' :: 'G' :: 'S' :: 'T' :: replaceC6ST u from rfl]
      exact List.cons_ne_nil _ _
    · have hne : ∀ u, c = 'C' → cs = '6' :: 'S' :: 'T' :: u → False :=
        fun u h1 h2 => hstart ⟨u, h1, h2⟩
      rw [replaceC6ST_cons_ne c cs hne]
      exact List.cons_ne_nil _ _

/-- `replaceC6ST` keeps a whitespace-free head. -/
theorem replaceC6ST_headNotWs (l : List Char) (h : headNotWs l) : headNotWs (replaceC6ST l) := by
  cases l with
  | nil =>
    intro c hc
    rw [show replaceC6ST [] = ([] : List Char) from rfl] at hc
    simp at hc
  | cons c cs =>
    by_cases hstart : ∃ u, c = 'C' ∧ cs = '6' :: 'S' :: 'T' :: u
    · obtain ⟨u, rfl, rfl⟩ := hstart
      rw [show replaceC6ST ('C' :: '6' :: 'S' :: 'T' :: u) =
        'C' :: 'G' :: 'S' :: 'T' :: replaceC6ST u from rfl]
      intro x hx
      have hrx : 'C' = x := Option.some.inj hx
      rw [← hrx]
      decide
    · have hne : ∀ u, c = 'C' → cs = '6' :: 'S' :: 'T' :: u → False :=
        fun u h1 h2 => hstart ⟨u, h1, h2⟩
      rw [replaceC6ST_cons_ne c cs hne]
      intro x hx
      have hcx : c = x := Option.some.inj hx
      rw [← hcx]
      exact h c rfl

/-- `replaceC6ST` keeps a whitespace-free last character. -/
theorem replaceC6ST_lastNotWs : ∀ l, lastNotWs l → lastNotWs (replaceC6ST l) := by
  intro l
  induction l using replaceC6ST.induct with
  | case3 =>
    intro _ x hx
    rw [show replaceC6ST [] = ([] : List Char) from rfl] at hx
    simp at hx
  | case1 cs ih =>
    intro h
    by_cases hcs : cs = []
    · subst hcs
      intro x hx
      rw [show replaceC6ST ('C' :: '6' :: 'S' :: 'T' :: []) =
        ('C' :: 'G' :: 'S' :: 'T' :: [] : List Char) from rfl] at hx
      rw [(by decide : ('C' :: 'G' :: 'S' :: 'T' :: [] : List Char).getLast? =
        some 'T')] at hx
      have hx' : 'T' = x := Option.some.inj hx
      rw [← hx']
      decide
    · intro x hx
      rw [show replaceC6ST ('C' :: '6' :: 'S' :: 'T' :: cs) =
        'C' :: 'G' :: 'S' :: 'T' :: replaceC6ST cs from rfl] at hx
      have hR : replaceC6ST cs ≠ [] := replaceC6ST_ne_nil cs hcs
      rw [getLast?_cons_ne_nil (List.cons_ne_nil _ _),
        getLast?_cons_ne_nil (List.cons_ne_nil _ _),
        getLast?_cons_ne_nil (List.cons_ne_nil _ _),
        getLast?_cons_ne_nil hR] at hx
      have hlast : lastNotWs cs := by
        intro y hy
        apply h y
        rw [getLast?_cons_ne_nil (List.cons_ne_nil _ _),
          getLast?_cons_ne_nil (List.cons_ne_nil _ _),
          getLast?_cons_ne_nil (List.cons_ne_nil _ _),
          getLast?_cons_ne_nil hcs]
        exact hy
      exact ih hlast x hx
  | case2 c cs hne ih =>
    intro h
    rw [replaceC6ST_cons_ne c cs hne]
    by_cases hcs : cs = []
    · subst hcs
      intro x hx
      rw [show replaceC6ST [] = ([] : List Char) from rfl] at hx
      exact h x hx
    · intro x hx
      have hR : replaceC6ST cs ≠ [] := replaceC6ST_ne_nil cs hcs
      rw [getLast?_cons_ne_nil hR] at hx
      have hlast : lastNotWs cs := by
        intro y hy
        apply h y
        rw [getLast?_cons_ne_nil hcs]
        exact hy
      exact ih hlast x hx


/-- `replaceS6ST` maps non-empty input to non-empty output. -/
theorem replaceS6ST_ne_nil : ∀ l : List Char, l ≠ [] → replaceS6ST l ≠ [] := by
  intro l hl
  cases l with
  | nil => exact absurd rfl hl
  | cons c cs =>
    by_cases hstart : ∃ u, c = 'S' ∧ cs = '6' :: 'S' :: 'T' :: u
    · obtain ⟨u, rfl, rfl⟩ := hstart
      rw [show replaceS6ST ('S' :: '6' :: 'S' :: 'T' :: u) =
        'S' :: 'G' :: 'S' :: 'T' :: replaceS6ST u from rfl]
      exact List.cons_ne_nil _ _
    · have hne : ∀ u, c = 'S' → cs = '6' :: 'S' :: 'T' :: u → False :=
        fun u h1 h2 => hstart ⟨u, h1, h2⟩
      rw [replaceS6ST_cons_ne c cs hne]
      exact List.cons_ne_nil _ _

/-- `replaceS6ST` keeps a whitespace-free head. -/
theorem replaceS6ST_headNotWs (l : List Char) (h : headNotWs l) : headNotWs (replaceS6ST l) := by
  cases l with
  | nil =>
    intro c hc
    rw [show replaceS6ST [] = ([] : List Char) from rfl] at hc
    simp at hc
  | cons c cs =>
    by_cases hstart : ∃ u, c = 'S' ∧ cs = '6' :: 'S' :: 'T' :: u
    · obtain ⟨u, rfl, rfl⟩ := hstart
      rw [show replaceS6ST ('S' :: '6' :: 'S' :: 'T' :: u) =
        'S' :: 'G' :: 'S' :: 'T' :: replaceS6ST u from rfl]
      intro x hx
      have hrx : 'S' = x := Option.some.inj hx
      rw [← hrx]
      decide
    · have hne : ∀ u, c = 'S' → cs = '6' :: 'S' :: 'T' :: u → False :=
        fun u h1 h2 => hstart ⟨u, h1, h2⟩
      rw [replaceS6ST_cons_ne c cs hne]
      intro x hx
      have hcx : c = x := Option.some.inj hx
      rw [← hcx]
      exact h c rfl

/-- `replaceS6ST` keeps a whitespace-free last character. -/
theorem replaceS6ST_lastNotWs : ∀ l, lastNotWs l → lastNotWs (replaceS6ST l) := by
  intro l
  induction l using replaceS6ST.induct with
  | case3 =>
    intro _ x hx
    rw [show replaceS6ST [] = ([] : List Char) from rfl] at hx
    simp at hx
  | case1 cs ih =>
    intro h
    by_cases hcs : cs = []
    · subst hcs
      intro x hx
      rw [show replaceS6ST ('S' :: '6' :: 'S' :: 'T' :: []) =
        ('S' :: 'G' :: 'S' :: 'T' :: [] : List Char) from rfl] at hx
      rw [(by decide : ('S' :: 'G' :: 'S' :: 'T' :: [] : List Char).getLast? =
        some 'T')] at hx
      have hx' : 'T' = x := Option.some.inj hx
      rw [← hx']
      decide
    · intro x hx
      rw [show replaceS6ST ('S' :: '6' :: 'S' :: 'T' :: cs) =
        'S' :: 'G' :: 'S' :: 'T' :: replaceS6ST cs from rfl] at hx
      have hR : replaceS6ST cs ≠ [] := replaceS6ST_ne_nil cs hcs
      rw [getLast?_cons_ne_nil (List.cons_ne_nil _ _),
        getLast?_cons_ne_nil (List.cons_ne_nil _ _),
        getLast?_cons_ne_nil (List.cons_ne_nil _ _),
        getLast?_cons_ne_nil hR] at hx
      have hlast : lastNotWs cs := by
        intro y hy
        apply h y
        rw [getLast?_cons_ne_nil (List.cons_ne_nil _ _),
          getLast?_cons_ne_nil (List.cons_ne_nil _ _),
          getLast?_cons_ne_nil (List.cons_ne_nil _ _),
          getLast?_cons_ne_nil hcs]
        exact hy
      exact ih hlast x hx
  | case2 c cs hne ih =>
    intro h
    rw [replaceS6ST_cons_ne c cs hne]
    by_cases hcs : cs = []
    · subst hcs
      intro x hx
      rw [show replaceS6ST [] = ([] : List Char) from rfl] at hx
      exact h x hx
    · intro x hx
      have hR : replaceS6ST cs ≠ [] := replaceS6ST_ne_nil cs hcs
      rw [getLast?_cons_ne_nil hR] at hx
      have hlast : lastNotWs cs := by
        intro y hy
        apply h y
        rw [getLast?_cons_ne_nil hcs]
        exact hy
      exact ih hlast x hx


/-- `replace1GST` maps non-empty input to non-empty output. -/
theorem replace1GST_ne_nil : ∀ l : List Char, l ≠ [] → replace1GST l ≠ [] := by
  intro l hl
  cases l with
  | nil => exact absurd rfl hl
  | cons c cs =>
    by_cases hstart : ∃ u, c = '1' ∧ cs = 'G' :: 'S' :: 'T' :: u
    · obtain ⟨u, rfl, rfl⟩ := hstart
      rw [show replace1GST ('1' :: 'G' :: 'S' :: 'T' :: u) =
        'I' :: 'G' :: 'S' :: 'T' :: replace1GST u from rfl]
      exact List.cons_ne_nil _ _
    · have hne : ∀ u, c = '1' → cs = 'G' :: 'S' :: 'T' :: u → False :=
        fun u h1 h2 => hstart ⟨u, h1, h2⟩
      rw [replace1GST_cons_ne c cs hne]
      exact List.cons_ne_nil _ _

/-- `replace1GST` keeps a whitespace-free head. -/
theorem replace1GST_headNotWs (l : List Char) (h : headNotWs l) : headNotWs (replace1GST l) := by
  cases l with
  | nil =>
    intro c hc
    rw [show replace1GST [] = ([] : List Char) from rfl] at hc
    simp at hc
  | cons c cs =>
    by_cases hstart : ∃ u, c = '1' ∧ cs = 'G' :: 'S' :: 'T' :: u
    · obtain ⟨u, rfl, rfl⟩ := hstart
      rw [show replace1GST ('1' :: 'G' :: 'S' :: 'T' :: u) =
        'I' :: 'G' :: 'S' :: 'T' :: replace1GST u from rfl]
      intro x hx
      have hrx : 'I' = x := Option.some.inj hx
      rw [← hrx]
      decide
    · have hne : ∀ u, c = '1' → cs = 'G' :: 'S' :: 'T' :: u → False :=
        fun u h1 h2 => hstart ⟨u, h1, h2⟩
      rw [replace1GST_cons_ne c cs hne]
      intro x hx
      have hcx : c = x := Option.some.inj hx
      rw [← hcx]
      exact h c rfl

/-- `replace1GST` keeps a whitespace-free last character. -/
theorem replace1GST_lastNotWs : ∀ l, lastNotWs l → lastNotWs (replace1GST l) := by
  intro l
  induction l using replace1GST.induct with
  | case3 =>
    intro _ x hx
    rw [show replace1GST [] = ([] : List Char) from rfl] at hx
    simp at hx
  | case1 cs ih =>
    intro h
    by_cases hcs : cs = []
    · subst hcs
      intro x hx
      rw [show replace1GST ('1' :: 'G' :: 'S' :: 'T' :: []) =
        ('I' :: 'G' :: 'S' :: 'T' :: [] : List Char) from rfl] at hx
      rw [(by decide : ('I' :: 'G' :: 'S' :: 'T' :: [] : List Char).getLast? =
        some 'T')] at hx
      have hx' : 'T' = x := Option.some.inj hx
      rw [← hx']
      decide
    · intro x hx
      rw [show replace1GST ('1' :: 'G' :: 'S' :: 'T' :: cs) =
        'I' :: 'G' :: 'S' :: 'T' :: replace1GST cs from rfl] at hx
      have hR : replace1GST cs ≠ [] := replace1GST_ne_nil cs hcs
      rw [getLast?_cons_ne_nil (List.cons_ne_nil _ _),
        getLast?_cons_ne_nil (List.cons_ne_nil _ _),
        getLast?_cons_ne_nil (List.cons_ne_nil _ _),
        getLast?_cons_ne_nil hR] at hx
      have hlast : lastNotWs cs := by
        intro y hy
        apply h y
        rw [getLast?_cons_ne_nil (List.cons_ne_nil _ _),
          getLast?_cons_ne_nil (List.cons_ne_nil _ _),
          getLast?_cons_ne_nil (List.cons_ne_nil _ _),
          getLast?_cons_ne_nil hcs]
        exact hy
      exact ih hlast x hx
  | case2 c cs hne ih =>
    intro h
    rw [replace1GST_cons_ne c cs hne]
    by_cases hcs : cs = []
    · subst hcs
      intro x hx
      rw [show replace1GST [] = ([] : List Char) from rfl] at hx
      exact h x hx
    · intro x hx
      have hR : replace1GST cs ≠ [] := replace1GST_ne_nil cs hcs
      rw [getLast?_cons_ne_nil hR] at hx
      have hlast : lastNotWs cs := by
        intro y hy
        apply h y
        rw [getLast?_cons_ne_nil hcs]
        exact hy
      exact ih hlast x hx

/-- Collapsing maps non-empty input to non-empty output. -/
theorem collapse_ne_nil : ∀ l : List Char, l ≠ [] → collapseWs l ≠ [] := by
  intro l hl
  cases l with
  | nil => exact absurd rfl hl
  | cons c cs =>
    by_cases hc : pyWs c
    · cases cs with
      | nil => rw [collapseWs_single]; exact List.cons_ne_nil _ _
      | cons d ds =>
        by_cases hd : pyWs d
        · rw [collapseWs_cons_ws_ws c d ds hc hd]
          exact List.cons_ne_nil _ _
        · rw [collapseWs_cons_ws_nonws c d ds hc (by simpa using hd)]
          exact List.cons_ne_nil _ _
    · rw [collapseWs_cons_nonws c cs (by simpa using hc)]
      exact List.cons_ne_nil _ _

/-- The run-skipper returns the empty list only on all-whitespace input. -/
theorem skip_nil_all_ws : ∀ l : List Char, skipWsCollapse l = [] →
    ∀ a ∈ l, pyWs a = true := by
  intro l
  induction l with
  | nil => intro _ a ha; exact absurd ha (List.not_mem_nil a)
  | cons c cs ih =>
    intro h a ha
    by_cases hc : pyWs c
    · rw [skipWsCollapse_cons_ws c cs hc] at h
      rcases List.mem_cons.1 ha with rfl | ha'
      · exact hc
      · exact ih h a ha'
    · rw [skipWsCollapse_cons_nonws c cs (by simpa using hc)] at h
      exact absurd h (List.cons_ne_nil _ _)

/-- Collapsing keeps a whitespace-free head. -/
theorem collapse_headNotWs (l : List Char) (h : headNotWs l) :
    headNotWs (collapseWs l) := by
  cases l with
  | nil =>
    intro c hc
    rw [show collapseWs [] = ([] : List Char) from rfl] at hc
    simp at hc
  | cons c cs =>
    have hc : pyWs c = false := h c rfl
    rw [collapseWs_cons_nonws c cs hc]
    intro x hx
    have hcx : c = x := Option.some.inj hx
    rw [← hcx]
    exact hc

/-- Collapsing keeps a whitespace-free last character. -/
theorem collapse_lastNotWs : ∀ (n : Nat) (l : List Char), l.length ≤ n →
    (lastNotWs l → lastNotWs (collapseWs l)) ∧
    (lastNotWs l → lastNotWs (skipWsCollapse l)) := by
  intro n
  induction n with
  | zero =>
    intro l hl
    have hnil : l = [] := List.length_eq_zero.1 (Nat.le_zero.1 hl)
    subst hnil
    constructor <;>
      · intro _ x hx
        first
          | rw [show collapseWs [] = ([] : List Char) from rfl] at hx
          | rw [show skipWsCollapse [] = ([] : List Char) from rfl] at hx
        simp at hx
  | succ n ih =>
    intro l hl
    cases l with
    | nil =>
      constructor
      · intro _ x hx
        rw [show collapseWs [] = ([] : List Char) from rfl] at hx
        simp at hx
      · intro _ x hx
        rw [show skipWsCollapse [] = ([] : List Char) from rfl] at hx
        simp at hx
    | cons c cs =>
      have hcs : cs.length ≤ n := Nat.le_of_succ_le_succ (by simpa using hl)
      constructor
      · intro h
        by_cases hc : pyWs c
        · cases cs with
          | nil => rw [collapseWs_single]; exact h
          | cons d ds =>
            have hlast_cs : lastNotWs (d :: ds) := by
              intro y hy
              apply h y
              rw [getLast?_cons_ne_nil (List.cons_ne_nil _ _)]
              exact hy
            by_cases hd : pyWs d
            · rw [collapseWs_cons_ws_ws c d ds hc hd]
              by_cases hskip : skipWsCollapse (d :: ds) = []
              · exfalso
                have hall := skip_nil_all_ws (d :: ds) hskip
                cases hgl : (d :: ds).getLast? with
                | none =>
                  rw [List.getLast?_eq_none_iff] at hgl
                  exact List.cons_ne_nil d ds hgl
                | some y =>
                  have hy := hlast_cs y hgl
                  have hmem : y ∈ d :: ds := List.mem_of_mem_getLast? hgl
                  have hwy := hall y hmem
                  rw [hy] at hwy
                  exact Bool.false_ne_true hwy
              · intro x hx
                rw [getLast?_cons_ne_nil hskip] at hx
                exact (ih (d :: ds) hcs).2 hlast_cs x hx
            · rw [collapseWs_cons_ws_nonws c d ds hc (by simpa using hd)]
              intro x hx
              have hcol_ne : collapseWs (d :: ds) ≠ [] :=
                collapse_ne_nil (d :: ds) (List.cons_ne_nil _ _)
              rw [getLast?_cons_ne_nil hcol_ne] at hx
              exact (ih (d :: ds) hcs).1 hlast_cs x hx
        · rw [collapseWs_cons_nonws c cs (by simpa using hc)]
          by_cases hcsnil : cs = []
          · subst hcsnil
            intro x hx
            rw [show collapseWs [] = ([] : List Char) from rfl] at hx
            exact h x hx
          · intro x hx
            have hcol_ne : collapseWs cs ≠ [] := collapse_ne_nil cs hcsnil
            rw [getLast?_cons_ne_nil hcol_ne] at hx
            have hlast_cs : lastNotWs cs := by
              intro y hy
              apply h y
              rw [getLast?_cons_ne_nil hcsnil]
              exact hy
            exact (ih cs hcs).1 hlast_cs x hx
      · intro h
        by_cases hc : pyWs c
        · rw [skipWsCollapse_cons_ws c cs hc]
          by_cases hcsnil : cs = []
          · subst hcsnil
            intro x hx
            rw [show skipWsCollapse [] = ([] : List Char) from rfl] at hx
            simp at hx
          · refine (ih cs hcs).2 ?_
            intro y hy
            apply h y
            rw [getLast?_cons_ne_nil hcsnil]
            exact hy
        · rw [skipWsCollapse_cons_nonws c cs (by simpa using hc)]
          by_cases hcsnil : cs = []
          · subst hcsnil
            intro x hx
            rw [show collapseWs [] = ([] : List Char) from rfl] at hx
            exact h x hx
          · intro x hx
            have hcol_ne : collapseWs cs ≠ [] := collapse_ne_nil cs hcsnil
            rw [getLast?_cons_ne_nil hcol_ne] at hx
            have hlast_cs : lastNotWs cs := by
              intro y hy
              apply h y
              rw [getLast?_cons_ne_nil hcsnil]
              exact hy
            exact (ih cs hcs).1 hlast_cs x hx

/-- Left-trimming is the identity when the head is not whitespace. -/
theorem trimLeftWs_id (l : List Char) (h : headNotWs l) : trimLeftWs l = l := by
  cases l with
  | nil => rfl
  | cons c cs =>
    rw [trimLeftWs, List.dropWhile_cons_of_neg]
    rw [h c rfl]
    exact Bool.false_ne_true

/-- Stripping is the identity on lines with whitespace-free ends. -/
theorem pyStrip_id (l : List Char) (h1 : headNotWs l) (h2 : lastNotWs l) :
    pyStrip l = l := by
  unfold pyStrip
  rw [trimLeftWs_id l h1]
  rw [trimLeftWs_id l.reverse]
  · exact List.reverse_reverse l
  · intro c hc
    rw [List.head?_reverse] at hc
    exact h2 c hc

/-- Tab replacement is the identity on tab-free lines. -/
theorem replaceTabs_id (l : List Char) (h : '\t' ∉ l) : replaceTabs l = l := by
  induction l using replaceTabs.induct with
  | case1 => rfl
  | case2 cs ih => exact absurd (List.mem_cons_self _ _) h
  | case3 c cs hne ih =>
    rw [replaceTabs_cons_ne c cs hne]
    rw [ih (fun hm => h (List.mem_cons_of_mem c hm))]

/-- `replaceC6ST` is the identity when its pattern is absent. -/
theorem replaceC6ST_id : ∀ l, containsSeq ['C','6','S','T'] l = false → replaceC6ST l = l := by
  intro l
  induction l using replaceC6ST.induct with
  | case3 => intro _; rfl
  | case1 cs ih =>
    intro h
    exfalso
    have hsw := ((containsSeq_cons_false _ _ _).1 h).1
    rw [Bool.eq_false_iff] at hsw
    apply hsw
    rw [startsWithSeq_iff_append]
    exact ⟨cs, rfl⟩
  | case2 c cs hne ih =>
    intro h
    rw [replaceC6ST_cons_ne c cs hne, ih ((containsSeq_cons_false _ _ _).1 h).2]


/-- `replaceS6ST` is the identity when its pattern is absent. -/
theorem replaceS6ST_id : ∀ l, containsSeq ['S','6','S','T'] l = false → replaceS6ST l = l := by
  intro l
  induction l using replaceS6ST.induct with
  | case3 => intro _; rfl
  | case1 cs ih =>
    intro h
    exfalso
    have hsw := ((containsSeq_cons_false _ _ _).1 h).1
    rw [Bool.eq_false_iff] at hsw
    apply hsw
    rw [startsWithSeq_iff_append]
    exact ⟨cs, rfl⟩
  | case2 c cs hne ih =>
    intro h
    rw [replaceS6ST_cons_ne c cs hne, ih ((containsSeq_cons_false _ _ _).1 h).2]


/-- `replace1GST` is the identity when its pattern is absent. -/
theorem replace1GST_id : ∀ l, containsSeq ['1','G','S','T'] l = false → replace1GST l = l := by
  intro l
  induction l using replace1GST.induct with
  | case3 => intro _; rfl
  | case1 cs ih =>
    intro h
    exfalso
    have hsw := ((containsSeq_cons_false _ _ _).1 h).1
    rw [Bool.eq_false_iff] at hsw
    apply hsw
    rw [startsWithSeq_iff_append]
    exact ⟨cs, rfl⟩
  | case2 c cs hne ih =>
    intro h
    rw [replace1GST_cons_ne c cs hne, ih ((containsSeq_cons_false _ _ _).1 h).2]

/-- Collapsing is the identity on adjacency-free lines (wrapper). -/
theorem collapseWs_id (l : List Char) (h : adjFree l) : collapseWs l = l :=
  collapse_id_of_adjFree l.length l (le_refl _) h

/-- The invariant characterising lines already produced by the normalizer:
whitespace-free ends, no tabs, none of the three OCR-misread tokens, no two
adjacent whitespace characters. -/
def NormalizedLine (l : List Char) : Prop :=
  headNotWs l ∧ lastNotWs l ∧ '\t' ∉ l ∧
  containsSeq ['C','6','S','T'] l = false ∧
  containsSeq ['S','6','S','T'] l = false ∧
  containsSeq ['1','G','S','T'] l = false ∧
  adjFree l

/-- Every output of the normalizer core satisfies the invariant. -/
theorem normalizeLineCore_normalized (x : List Char) :
    NormalizedLine (normalizeLineCore x) := by
  have h0h : headNotWs (pyStrip x) := pyStrip_headNotWs x
  have h0l : lastNotWs (pyStrip x) := pyStrip_lastNotWs x
  have h1h := replaceTabs_headNotWs _ h0h
  have h1l := replaceTabs_lastNotWs _ h0l
  have h2h := replaceC6ST_headNotWs _ h1h
  have h2l := replaceC6ST_lastNotWs _ h1l
  have h3h := replaceS6ST_headNotWs _ h2h
  have h3l := replaceS6ST_lastNotWs _ h2l
  have h4h := replace1GST_headNotWs _ h3h
  have h4l := replace1GST_lastNotWs _ h3l
  have t1 : '\t' ∉ replaceTabs (pyStrip x) := replaceTabs_no_tab _
  have t2 : '\t' ∉ replaceC6ST (replaceTabs (pyStrip x)) := by
    intro hm
    rcases mem_replaceC6ST '\t' _ hm with h | h
    · exact t1 h
    · exact absurd h (by decide)
  have t3 : '\t' ∉ replaceS6ST (replaceC6ST (replaceTabs (pyStrip x))) := by
    intro hm
    rcases mem_replaceS6ST '\t' _ hm with h | h
    · exact t2 h
    · exact absurd h (by decide)
  have t4 : '\t' ∉ replace1GST (replaceS6ST (replaceC6ST (replaceTabs (pyStrip x)))) := by
    intro hm
    rcases mem_replace1GST '\t' _ hm with h | h
    · exact t3 h
    · exact absurd h (by decide)
  have k2 := replaceC6ST_kill (replaceTabs (pyStrip x))
  have k3 := replaceS6ST_pres_C6ST _ k2
  have k4 := replace1GST_pres_C6ST _ k3
  have s3 := replaceS6ST_kill (replaceC6ST (replaceTabs (pyStrip x)))
  have s4 := replace1GST_pres_S6ST _ s3
  have g4 := replace1GST_kill (replaceS6ST (replaceC6ST (replaceTabs (pyStrip x))))
  refine ⟨collapse_headNotWs _ h4h,
          (collapse_lastNotWs _ _ (le_refl _)).1 h4l,
          ?_,
          (collapse_pres_contains _ (by decide) (by decide) _ _ (le_refl _)).1 k4,
          (collapse_pres_contains _ (by decide) (by decide) _ _ (le_refl _)).1 s4,
          (collapse_pres_contains _ (by decide) (by decide) _ _ (le_refl _)).1 g4,
          (collapse_adjFree _ _ (le_refl _)).1⟩
  intro hm
  rcases (collapse_mem _ _ (le_refl _)).1 '\t' hm with h | h
  · exact t4 h
  · exact absurd h (by decide)

/-- The normalizer core fixes every line satisfying the invariant. -/
theorem normalizeLineCore_id (l : List Char) (h : NormalizedLine l) :
    normalizeLineCore l = l := by
  obtain ⟨hh, hl, ht, hc, hs, hg, ha⟩ := h
  unfold normalizeLineCore
  rw [pyStrip_id l hh hl, replaceTabs_id l ht, replaceC6ST_id l hc,
    replaceS6ST_id l hs, replace1GST_id l hg, collapseWs_id l ha]

/-- C8: the line normalizer is idempotent: applying it twice to any string
yields the same result as applying it once. -/
theorem normalize_ocr_line_idempotent (s : String) :
    normalize_ocr_line (normalize_ocr_line s) = normalize_ocr_line s := by
  by_cases hs : s = ""
  · subst hs
    rfl
  · have hinner : normalize_ocr_line s = String.mk (normalizeLineCore s.data) := by
      rw [normalize_ocr_line, if_neg hs]
    rw [hinner, normalize_ocr_line]
    by_cases h2 : String.mk (normalizeLineCore s.data) = ""
    · rw [if_pos h2]
      exact h2.symm
    · rw [if_neg h2]
      rw [show (String.mk (normalizeLineCore s.data)).data = normalizeLineCore s.data
        from rfl]
      rw [normalizeLineCore_id _ (normalizeLineCore_normalized s.data)]
